import Mathlib

/-!
# Verification of the go-matroska EBML decoding engine

A shallow embedding of `ebml/decode.go` (package `ebml`) and the schema-driven
decode loop (`typeCodec.UnmarshalEBML` / `fieldInfo.decode`), together with
theorems settling the frozen claims about the specification.

Modelling conventions:
* Bytes are `Nat` values `< 256`; Go `int64` quantities (`len`, `size`, `id`,
  decoded values) are Lean `Int`, with an explicit wrap at `2^64` where Go's
  two's-complement overflow can occur (`ReadInt` of 8 bytes).
* The underlying `io.Reader`/`bufio.Reader` pair is modelled by `Stream`:
  the full byte sequence, the effective read position (bytes consumed from the
  buffered reader), and whether the source is an `io.ReadSeeker`.
  `bufio.Reader.Buffered()` is not a function of this abstract state, so every
  operation that reaches `Skip` takes the observed buffered byte count `bn` as
  an explicit parameter; theorems quantify over it.
* Fallible operations return `Option Err × result × state`; Go methods mutate
  their receiver before returning an error, so the state is always returned.
-/

namespace GoMatroska

/-- Error values surfaced by the decoder: `io.EOF`, `ebml.ErrFormat`, the Go
runtime panic raised by the slice expression `b[:dec.len]` when `dec.len` is
negative, an operation addressed through a missing child cursor, and fuel
exhaustion of the bounded evaluator. -/
inductive Err where
  | eof
  | format
  | sliceOob
  | closed
  | fuel
deriving Repr, DecidableEq

/-- The byte source: underlying data, current effective read position (may run
past the end after a relative `Seek`), and whether `dec.rs != nil`. -/
structure Stream where
  data : List Nat
  pos : Nat
  seekable : Bool
deriving Repr, DecidableEq

/-- Bytes still obtainable from the source. -/
def Stream.avail (s : Stream) : Nat := s.data.length - s.pos

/-- `bufio.Reader.ReadByte`. -/
def Stream.readByte (s : Stream) : Option (Nat × Stream) :=
  if s.pos < s.data.length then
    some (s.data.getD s.pos 0, { s with pos := s.pos + 1 })
  else none

/-- `bufio.Reader.Peek n`: succeeds without consuming iff `n` bytes remain. -/
def Stream.peek (n : Nat) (s : Stream) : Option (List Nat) :=
  if n ≤ s.avail then some ((s.data.drop s.pos).take n) else none

/-- `bufio.Reader.Discard n`: on success advances by `n`; on failure (fewer
than `n` bytes remain) consumes everything and reports the shortfall. -/
def Stream.discard (n : Nat) (s : Stream) : Bool × Stream :=
  if n ≤ s.avail then (true, { s with pos := s.pos + n })
  else (false, { s with pos := s.data.length })

/-- `rs.Seek(dec.len-n, 1)` followed by `buf.Reset(rs)`: the underlying
position is `pos + buffered`, so the effective position lands at `pos + dist`
regardless of how much was buffered; seeking past the end is legal. -/
def Stream.seekForward (dist : Nat) (s : Stream) : Stream :=
  { s with pos := s.pos + dist }

/-- The `Decoder` struct of decode.go: remaining bytes `len`, total declared
`size`, element `id`, and `elem`, the most recently opened child cursor
(`rs` and `buf` are shared and live in `Stream`). -/
inductive Decoder where
  | mk (len size id : Int) (elem : Option Decoder)
deriving Repr

def Decoder.len : Decoder → Int
  | .mk l _ _ _ => l

def Decoder.size : Decoder → Int
  | .mk _ s _ _ => s

def Decoder.id : Decoder → Int
  | .mk _ _ i _ => i

def Decoder.elem : Decoder → Option Decoder
  | .mk _ _ _ e => e

def Decoder.withElem (e : Option Decoder) : Decoder → Decoder
  | .mk l s i _ => .mk l s i e

/-- Depth of the chain of open child cursors. -/
def Decoder.depth : Decoder → Nat
  | .mk _ _ _ none => 0
  | .mk _ _ _ (some e) => e.depth + 1

/-- The tail of `Skip` after its `skip()` call: return at once when
`len ≤ 0`, seek when `rs != nil` and the distance exceeds the `bn` buffered
bytes, otherwise discard from the buffer. -/
def Decoder.skipTail (bn : Nat) (len size id : Int) (elem : Option Decoder)
    (s : Stream) : Option Err × Decoder × Stream :=
  if len ≤ 0 then (none, .mk len size id elem, s)
  else if s.seekable && decide ((bn : Int) < len) then
    (none, .mk 0 size id elem, s.seekForward len.toNat)
  else
    match s.discard len.toNat with
    | (true, s2) => (none, .mk 0 size id elem, s2)
    | (false, s2) => (some .eof, .mk len size id elem, s2)

/-- `Skip`: skips the remaining bytes of this element.  It first forces
completion of the currently open child (the `skip()` call, unfolded here so
that the recursion is structural on the child chain), then runs the tail. -/
def Decoder.Skip (bn : Nat) : Decoder → Stream → Option Err × Decoder × Stream
  | .mk len size id none, s => Decoder.skipTail bn len size id none s
  | .mk len size id (some e), s =>
    match Decoder.Skip bn e s with
    | (some err, e', s') => (some err, .mk len size id (some e'), s')
    | (none, e', s') => Decoder.skipTail bn len size id (some e') s'

/-- The unexported `skip()` helper: force completion of the currently open
child, if any; `dec.elem` keeps pointing at the (now closed) child. -/
def Decoder.skip (bn : Nat) (d : Decoder) (s : Stream) :
    Option Err × Decoder × Stream :=
  match d with
  | .mk len size id none => (none, .mk len size id none, s)
  | .mk len size id (some e) =>
    match Decoder.Skip bn e s with
    | (err, e', s') => (err, .mk len size id (some e'), s')


/-- `mask` table from decode.go. -/
def mask : List Nat := [0x80, 0x40, 0x20, 0x10, 0x8, 0x4, 0x2, 0x1]

/-- `rest` table from decode.go. -/
def rest : List Nat := [0xff, 0x7f, 0x3f, 0x1f, 0xf, 0x7, 0x3, 0x1, 0x0]

/-- `maxBufferSize = int64(1 << 20)`. -/
def maxBufferSize : Int := 1 <<< 20

/-- The body of the `for _, it := range b { v = (v << 8) | int64(it) }` loop
shared by `readVint` and `ReadInt`; values stay nonnegative so it is computed
on `Nat`. -/
def combByte (v b : Nat) : Nat := (v <<< 8) ||| b

def combineBytes (v : Nat) (bs : List Nat) : Nat := bs.foldl combByte v

/-- The `for n, bit = range mask` scan of `readVint`, iterating over the
remaining indices `i, i+1, ..., 7` (structurally, on the count `r` of
remaining iterations).  When no bit of `m` is set the loop runs to the end
without `break`, leaving Go's `n = 7` (the last index) and `v` at zero. -/
def vintScanGo (m off : Nat) : Nat → Nat → Nat × Nat
  | 0, _ => (7, 0)
  | r + 1, i =>
    if m &&& mask.getD i 0 ≠ 0 then (i, m &&& rest.getD (i + off) 0)
    else vintScanGo m off r (i + 1)

/-- Go's `(n, v)` after scanning `mask` from index `i`. -/
def vintScan (m off i : Nat) : Nat × Nat := vintScanGo m off (8 - i) i

/-- Two's-complement reinterpretation of a `Nat` as a Go `int64`. -/
def toInt64 (x : Nat) : Int :=
  if x % 2 ^ 64 < 2 ^ 63 then (x % 2 ^ 64 : Int) else (x % 2 ^ 64 : Int) - 2 ^ 64

/-- `Decoder.readVint(off)`: decodes one variable-width integer.  Returns
Go's `(v, n, err)` triple (value, width minus one) plus the updated state. -/
def Decoder.readVint (bn off : Nat) (d : Decoder) (s : Stream) :
    Option Err × Int × Nat × Decoder × Stream :=
  match Decoder.skip bn d s with
  | (some err, d', s') => (some err, 0, 0, d', s')
  | (none, .mk len size id elem, s') =>
    if len < 1 ∧ 0 < size then (some .eof, 0, 0, .mk len size id elem, s')
    else
      match s'.readByte with
      | none => (some .eof, 0, 0, .mk len size id elem, s')
      | some (m, s1) =>
        let len1 := len - 1
        match vintScan m off 0 with
        | (n, v0) =>
          if 0 < n then
            if (len1 < (n : Int)) ∧ 0 < size then
              (some .eof, (v0 : Int), n, .mk len1 size id elem, s1)
            else
              match s1.peek n with
              | none => (some .eof, (v0 : Int), n, .mk len1 size id elem, s1)
              | some bs =>
                match s1.discard n with
                | (true, s2) =>
                  (none, (combineBytes v0 bs : Int), n, .mk (len1 - n) size id elem, s2)
                | (false, s2) =>
                  (some .eof, (combineBytes v0 bs : Int), n, .mk len1 size id elem, s2)
          else (none, (v0 : Int), n, .mk len1 size id elem, s1)

/-- `Decoder.Next`: reads the next EBML-encoded element header and opens the
child cursor.  Returns Go's `(id, v, err)` plus the updated parent and stream.
`dec.size < size && 0 < dec.size` is the size validation: the decoded size is
compared against the cursor's *total* declared size, not its remaining bytes. -/
def Decoder.Next (bn : Nat) (d : Decoder) (s : Stream) :
    Option Err × Int × Option Decoder × Decoder × Stream :=
  match Decoder.skip bn d s with
  | (some err, d', s') => (some err, 0, none, d', s')
  | (none, d0, s0) =>
    match Decoder.readVint bn 0 d0 s0 with
    | (some err, _, _, d1, s1) => (some err, 0, none, d1, s1)
    | (none, idv, _, d1, s1) =>
      match Decoder.readVint bn 1 d1 s1 with
      | (some err, _, _, d2, s2) => (some err, idv, none, d2, s2)
      | (none, sizev, _, d2, s2) =>
        if idv = 0 ∨ sizev < 0 then (some .format, idv, none, d2, s2)
        else if d2.size < sizev ∧ 0 < d2.size then (some .format, idv, none, d2, s2)
        else if sizev = 0 then (none, idv, none, d2, s2)
        else
          let child := Decoder.mk sizev sizev idv none
          (none, idv, some child,
            .mk (d2.len - sizev) d2.size d2.id (some child), s2)

/-- The read loop of `Decoder.Read` once the request size `req` is fixed:
`bufio.Read` hands out chunks until the request is filled or the source is
exhausted (then `io.EOF`); `dec.len` is decremented by the bytes consumed. -/
def Decoder.readFill (req : Nat) (len size id : Int) (elem : Option Decoder)
    (s : Stream) : Option Err × List Nat × Decoder × Stream :=
  let take := min req s.avail
  let bs := (s.data.drop s.pos).take take
  let s' := { s with pos := s.pos + take }
  let d' := Decoder.mk (len - take) size id elem
  if take < req then (some .eof, bs, d', s') else (none, bs, d', s')

/-- `Decoder.Read`: bounded raw read of (up to) `k` bytes.  The slice clamp
`b = b[:dec.len]` applies when `dec.len < int64(len(b)) && 0 < dec.size` and
panics at runtime when `dec.len` is negative. -/
def Decoder.Read (bn k : Nat) (d : Decoder) (s : Stream) :
    Option Err × List Nat × Decoder × Stream :=
  match Decoder.skip bn d s with
  | (some err, d', s') => (some err, [], d', s')
  | (none, .mk len size id elem, s') =>
    if len < (k : Int) ∧ 0 < size then
      if len < 0 then (some .sliceOob, [], .mk len size id elem, s')
      else Decoder.readFill len.toNat len size id elem s'
    else Decoder.readFill k len size id elem s'

/-- `Decoder.ReadInt`: big-endian combination of all `dec.len ∈ [1, 8]`
payload bytes, with Go's `int64` wraparound on the result. -/
def Decoder.ReadInt (bn : Nat) (d : Decoder) (s : Stream) :
    Option Err × Int × Decoder × Stream :=
  match Decoder.skip bn d s with
  | (some err, d', s') => (some err, 0, d', s')
  | (none, .mk len size id elem, s') =>
    if len < 1 ∨ len > 8 then (some .format, 0, .mk len size id elem, s')
    else
      let n := len.toNat
      match s'.peek n with
      | none => (some .eof, 0, .mk len size id elem, s')
      | some b =>
        let v := toInt64 (combineBytes 0 b)
        match s'.discard n with
        | (true, s2) => (none, v, .mk 0 size id elem, s2)
        | (false, s2) => (some .eof, v, .mk len size id elem, s2)

/-- `Decoder.ReadFloat`: requires `dec.len ∈ {4, 8}`.  Only the raw IEEE bit
pattern is modelled (no float arithmetic touches any claim). -/
def Decoder.ReadFloat (bn : Nat) (d : Decoder) (s : Stream) :
    Option Err × Nat × Decoder × Stream :=
  match Decoder.skip bn d s with
  | (some err, d', s') => (some err, 0, d', s')
  | (none, .mk len size id elem, s') =>
    if len = 4 ∨ len = 8 then
      match s'.peek len.toNat with
      | none => (some .eof, 0, .mk len size id elem, s')
      | some b =>
        match s'.discard len.toNat with
        | (true, s2) => (none, combineBytes 0 b, .mk 0 size id elem, s2)
        | (false, s2) => (some .eof, combineBytes 0 b, .mk len size id elem, s2)
    else (some .format, 0, .mk len size id elem, s')

/-- `Decoder.ReadBool`: `ReadInt() != 0`. -/
def Decoder.ReadBool (bn : Nat) (d : Decoder) (s : Stream) :
    Option Err × Bool × Decoder × Stream :=
  match Decoder.ReadInt bn d s with
  | (some err, _, d', s') => (some err, false, d', s')
  | (none, v, d', s') => (none, v ≠ 0, d', s')

/-- `Decoder.ReadTime`: `ReadInt` interpreted as a nanosecond offset from the
2001-01-01 UTC epoch; the offset itself is the modelled value. -/
def Decoder.ReadTime (bn : Nat) (d : Decoder) (s : Stream) :
    Option Err × Int × Decoder × Stream :=
  Decoder.ReadInt bn d s

/-- `Decoder.ReadBytes`: rejects `dec.len < 0 || maxBufferSize < dec.len`
before allocating, then reads exactly `dec.len` bytes. -/
def Decoder.ReadBytes (bn : Nat) (d : Decoder) (s : Stream) :
    Option Err × List Nat × Decoder × Stream :=
  match Decoder.skip bn d s with
  | (some err, d', s') => (some err, [], d', s')
  | (none, d0, s0) =>
    if d0.len < 0 ∨ maxBufferSize < d0.len then (some .format, [], d0, s0)
    else
      match Decoder.Read bn d0.len.toNat d0 s0 with
      | (some err, _, d1, s1) => (some err, [], d1, s1)
      | (none, bs, d1, s1) => (none, bs, d1, s1)

/-- `Decoder.ReadString`: `ReadBytes` reinterpreted as UTF-8 text. -/
def Decoder.ReadString (bn : Nat) (d : Decoder) (s : Stream) :
    Option Err × List Nat × Decoder × Stream :=
  Decoder.ReadBytes bn d s

/-- One public cursor operation, used to quantify over operation sequences. -/
inductive Op where
  | next
  | read (k : Nat)
  | skipAll
  | readInt
  | readFloat
  | readBool
  | readTime
  | readBytes
  | readString
deriving Repr, DecidableEq

/-- Run one operation against a cursor, keeping only error and state. -/
def Decoder.applyOp (bn : Nat) (op : Op) (d : Decoder) (s : Stream) :
    Option Err × Decoder × Stream :=
  match op with
  | .next => match Decoder.Next bn d s with | (e, _, _, d', s') => (e, d', s')
  | .read k => match Decoder.Read bn k d s with | (e, _, d', s') => (e, d', s')
  | .skipAll => Decoder.Skip bn d s
  | .readInt => match Decoder.ReadInt bn d s with | (e, _, d', s') => (e, d', s')
  | .readFloat => match Decoder.ReadFloat bn d s with | (e, _, d', s') => (e, d', s')
  | .readBool => match Decoder.ReadBool bn d s with | (e, _, d', s') => (e, d', s')
  | .readTime => match Decoder.ReadTime bn d s with | (e, _, d', s') => (e, d', s')
  | .readBytes => match Decoder.ReadBytes bn d s with | (e, _, d', s') => (e, d', s')
  | .readString => match Decoder.ReadString bn d s with | (e, _, d', s') => (e, d', s')

/-- Apply an operation to the cursor `depth` levels down the open-child chain
(mutating a child through its pointer mutates it inside its parent too). -/
def Decoder.applyAt (bn : Nat) : Nat → Op → Decoder → Stream →
    Option Err × Decoder × Stream
  | 0, op, d, s => Decoder.applyOp bn op d s
  | _ + 1, _, .mk len size id none, s => (some .closed, .mk len size id none, s)
  | k + 1, op, .mk len size id (some e), s =>
    match Decoder.applyAt bn k op e s with
    | (err, e', s') => (err, .mk len size id (some e'), s')

/-- Run a sequence of `(buffered, depth, op)` triples, collecting the error
outcome of every operation (callers may keep going after an error). -/
def runOps : List (Nat × Nat × Op) → Decoder → Stream →
    List (Option Err) × Decoder × Stream
  | [], d, s => ([], d, s)
  | (bn, depth, op) :: ops, d, s =>
    match Decoder.applyAt bn depth op d s with
    | (err, d', s') =>
      match runOps ops d' s' with
      | (errs, d2, s2) => (err :: errs, d2, s2)

/-- The part of the spec's cursor invariant that the code maintains:
`remaining ≤ totalSize` for every cursor in the open chain. -/
def Decoder.wfb : Decoder → Bool
  | .mk len size _ none => len ≤ size
  | .mk len size _ (some e) => len ≤ size && e.wfb

/-- Every cursor hanging off this one has been fully consumed
(`len ≤ 0` all the way down), so a pending `skip()` is a no-op. -/
def Decoder.chainClosed : Decoder → Bool
  | .mk len _ _ none => decide (len ≤ 0)
  | .mk len _ _ (some e) => decide (len ≤ 0) && e.chainClosed

def closedChain (o : Option Decoder) : Bool := o.all Decoder.chainClosed

/-- Big-endian `n`-byte rendering of `x` (low `8n` bits). -/
def beBytes : Nat → Nat → List Nat
  | 0, _ => []
  | n + 1, x => beBytes n (x / 256) ++ [x % 256]

/-- Modelled from the spec: the repository's encoder (`Encoder.Encode`) is an
empty stub, so §4.1's reference encoding is taken from the spec's words.  An
id of width `n` carries its width marker `2^(8-n)` (times `256^(n-1)`) as part
of its numeric value, so its encoding is just its big-endian bytes; valid for
`2^(7n) ≤ x < 2^(7n+1)`. -/
def encodeVintId (n x : Nat) : List Nat := beBytes n x

/-- Modelled from the spec: reference encoding of a size of width `n` — the
pure magnitude `x < 2^(7n)` with the width-marker bit added on top. -/
def encodeVintSize (n x : Nat) : List Nat := beBytes n (2 ^ (7 * n) + x)

/-- What claim C3 asserts the id-kind mask produces from a width-`n` leading
byte: "clears exactly the width-marker bit of the leading byte and keeps all
its other bits as value bits". -/
def claimIdResidual (n m : Nat) : Nat := m - 2 ^ (8 - n)

/-! ## The schema-driven decode loop (`typeCodec` / `fieldInfo`)

The reflection-driven dispatch of `fieldInfo.decode` is modelled over a small
closed universe of field kinds: signed integers (`reflect.Int*`), raw bytes
(`[]byte`), strings, and pointer-to-struct.  A schema (`structInfo`) is a list
of `(id, kind)` descriptors; the decoded struct value is the positional list
of its field values.  `>`-paths and slice-append fields are not needed by any
claim and are omitted. -/

inductive FKind where
  | kint
  | kbytes
  | kstring
  | kptr (fields : List (Int × FKind))
deriving Repr

/-- A decoded field value; `vptr none` is Go's nil pointer zero value. -/
inductive FVal where
  | vint (i : Int)
  | vbytes (b : List Nat)
  | vstring (b : List Nat)
  | vptr (x : Option (List FVal))
deriving Repr

/-- Go zero value of a field. -/
def FKind.zero : FKind → FVal
  | .kint => .vint 0
  | .kbytes => .vbytes []
  | .kstring => .vstring []
  | .kptr _ => .vptr none

def zeroStruct (sh : List (Int × FKind)) : List FVal := sh.map fun p => p.2.zero

/-- `structInfo.ids[id]` built as in `newStructInfo`: each field is inserted
in order, so with duplicate tag ids the last field wins. -/
def lookupField (sh : List (Int × FKind)) (idv : Int) : Option (Nat × FKind) :=
  sh.enum.foldl (fun acc x => if x.2.1 = idv then some (x.1, x.2.2) else acc) none

/-- `typeCodec.UnmarshalEBML`, with `fieldInfo.decode` inlined at its single
call site so that the recursion is structural on `fuel` (which bounds loop
iterations; each successful `Next` consumes at least two stream bytes, so any
concrete run has enough fuel).  `io.EOF` from `Next` is the normal end of the
container; a nil child (`size == 0`) is skipped silently; unknown ids are
`Skip`ped at the byte level.  The `.kptr` case mirrors the `reflect.Ptr`
branch of `fieldInfo.decode`: a fresh struct is allocated only when the
pointer is nil, after which decoding proceeds in place on the existing
instance (partial mutations persist even when an error is returned). -/
def unmarshalEBML (bn : Nat) : Nat → List (Int × FKind) → List FVal →
    Decoder → Stream → Option Err × List FVal × Decoder × Stream
  | 0, _, v, d, s => (some .fuel, v, d, s)
  | fuel + 1, sh, v, d, s =>
    match Decoder.Next bn d s with
    | (some .eof, _, _, d', s') => (none, v, d', s')
    | (some e, _, _, d', s') => (some e, v, d', s')
    | (none, _, none, d', s') => unmarshalEBML bn fuel sh v d' s'
    | (none, idv, some child, d', s') =>
      match lookupField sh idv with
      | some (idx, .kint) =>
        match Decoder.ReadInt bn child s' with
        | (some e, _, child', s2) => (some e, v, d'.withElem (some child'), s2)
        | (none, i, child', s2) =>
          unmarshalEBML bn fuel sh (v.set idx (.vint i)) (d'.withElem (some child')) s2
      | some (idx, .kbytes) =>
        match Decoder.ReadBytes bn child s' with
        | (some e, _, child', s2) => (some e, v, d'.withElem (some child'), s2)
        | (none, b, child', s2) =>
          unmarshalEBML bn fuel sh (v.set idx (.vbytes b)) (d'.withElem (some child')) s2
      | some (idx, .kstring) =>
        match Decoder.ReadString bn child s' with
        | (some e, _, child', s2) => (some e, v, d'.withElem (some child'), s2)
        | (none, b, child', s2) =>
          unmarshalEBML bn fuel sh (v.set idx (.vstring b)) (d'.withElem (some child')) s2
      | some (idx, .kptr inner) =>
        let prev := match v.getD idx (FVal.vptr none) with
          | .vptr (some sv) => sv
          | _ => zeroStruct inner
        match unmarshalEBML bn fuel inner prev child s' with
        | (some e, sv, child', s2) =>
          (some e, v.set idx (.vptr (some sv)), d'.withElem (some child'), s2)
        | (none, sv, child', s2) =>
          unmarshalEBML bn fuel sh (v.set idx (.vptr (some sv))) (d'.withElem (some child')) s2
      | none =>
        match Decoder.Skip bn child s' with
        | (some e, child', s2) => (some e, v, d'.withElem (some child'), s2)
        | (none, child', s2) => unmarshalEBML bn fuel sh v (d'.withElem (some child')) s2


/-- One serialized element: a width-1 id byte, an 8-byte size field
(`0x01` marker byte plus seven big-endian length bytes), then the payload. -/
def encodeElem (e : Nat × List Nat) : List Nat :=
  e.1 :: 0x01 :: (beBytes 7 e.2.length ++ e.2)

/-- A container payload laid out as consecutive sibling elements. -/
def serialize : List (Nat × List Nat) → List Nat
  | [] => []
  | e :: t => encodeElem e ++ serialize t

/-- Well-formedness of a serialized element list: width-1 ids, sizes within
the 7-byte length field. -/
def validElems : List (Nat × List Nat) → Bool
  | [] => true
  | (i, p) :: t => 128 ≤ i && i < 256 && p.length < 2 ^ 56 && validElems t

/-- Two element lists that differ only in the payload bytes of elements whose
ids match no field descriptor (ids and payload lengths agree throughout). -/
def agreeElems (sh : List (Int × FKind)) :
    List (Nat × List Nat) → List (Nat × List Nat) → Bool
  | [], [] => true
  | (i1, p1) :: t1, (i2, p2) :: t2 =>
    i1 == i2 && p1.length == p2.length &&
      (!(lookupField sh (i1 : Int)).isSome || p1 == p2) && agreeElems sh t1 t2
  | _, _ => false

/-- Schemas whose fields are all leaf kinds (no nested struct pointers). -/
def leafShape (sh : List (Int × FKind)) : Bool :=
  sh.all fun p =>
    match p.2 with
    | .kptr _ => false
    | _ => true

/-- Projects the decoded byte payload out of the value tree produced by the
C9 counterexample schema `[(id, kptr [(id', kbytes)])]`. -/
def probeBytes : List FVal → List Nat
  | [.vptr (some [.vbytes u])] => u
  | _ => []

/-- Projects the second integer field out of the value tree produced by the
C4 schema `[(id, kptr [(idA, kint), (idB, kint)])]`. -/
def probeInt2 : List FVal → Int
  | [.vptr (some [_, .vint i])] => i
  | _ => 0

/-! ## Helper lemmas: bit arithmetic and big-endian bytes -/

theorem and_two_pow_eq_zero {m k : Nat} (h : m < 2 ^ k) : m &&& 2 ^ k = 0 := by
  rw [Nat.and_two_pow, Nat.testBit_lt_two_pow h]
  simp

theorem and_two_pow_self {m k : Nat} (h1 : 2 ^ k ≤ m) (h2 : m < 2 ^ (k + 1)) :
    m &&& 2 ^ k = 2 ^ k := by
  rw [Nat.and_two_pow]
  have hb : m.testBit k = true := by
    rw [Nat.testBit_to_div_mod]
    have hd : m / 2 ^ k = 1 := by
      apply Nat.div_eq_of_lt_le (by omega)
      calc m < 2 ^ (k + 1) := h2
        _ = (1 + 1) * 2 ^ k := by ring
    simp [hd]
  simp [hb]

theorem combByte_eq {b : Nat} (v : Nat) (hb : b < 256) :
    combByte v b = 256 * v + b := by
  have h1 : v <<< 8 = 2 ^ 8 * v := by
    rw [Nat.shiftLeft_eq]; ring
  have h2 : b < 2 ^ 8 := hb
  calc combByte v b = 2 ^ 8 * v ||| b := by rw [combByte, h1]
    _ = 2 ^ 8 * v + b := (Nat.mul_add_lt_is_or h2 v).symm
    _ = 256 * v + b := by norm_num

theorem beBytes_length (n x : Nat) : (beBytes n x).length = n := by
  induction n generalizing x with
  | zero => rfl
  | succ n ih => simp [beBytes, ih]

theorem beBytes_lt (n x : Nat) : ∀ b ∈ beBytes n x, b < 256 := by
  induction n generalizing x with
  | zero => simp [beBytes]
  | succ n ih =>
    simp only [beBytes, List.mem_append, List.mem_singleton]
    rintro b (hb | rfl)
    · exact ih _ b hb
    · exact Nat.mod_lt _ (by norm_num)

theorem combineBytes_beBytes (v x : Nat) : ∀ n, combineBytes v (beBytes n x) = v * 256 ^ n + x % 256 ^ n := by
  intro n
  induction n generalizing v x with
  | zero => simp [beBytes, combineBytes, Nat.mod_one]
  | succ n ih =>
    have hmod : x % 256 ^ (n + 1) = x % 256 + 256 * (x / 256 % 256 ^ n) := by
      have : (256 : Nat) ^ (n + 1) = 256 * 256 ^ n := by ring
      rw [this, Nat.mod_mul]
    calc combineBytes v (beBytes (n + 1) x)
        = combByte (combineBytes v (beBytes n (x / 256))) (x % 256) := by
          simp [beBytes, combineBytes]
      _ = 256 * (v * 256 ^ n + x / 256 % 256 ^ n) + x % 256 := by
          rw [ih, combByte_eq _ (Nat.mod_lt _ (by norm_num))]
      _ = v * 256 ^ (n + 1) + x % 256 ^ (n + 1) := by rw [hmod]; ring

theorem beBytes_cons (n x : Nat) :
    beBytes (n + 1) x = (x / 256 ^ n) % 256 :: beBytes n x := by
  induction n generalizing x with
  | zero => simp [beBytes]
  | succ n ih =>
    calc beBytes (n + 2) x = beBytes (n + 1) (x / 256) ++ [x % 256] := rfl
      _ = ((x / 256 / 256 ^ n) % 256 :: beBytes n (x / 256)) ++ [x % 256] := by
          rw [ih]
      _ = (x / 256 ^ (n + 1)) % 256 :: beBytes (n + 1) x := by
          rw [Nat.div_div_eq_div_mul, List.cons_append]
          norm_num [beBytes, Nat.pow_succ, Nat.mul_comm]

theorem restD_eq {i : Nat} (h : i ≤ 8) : rest.getD i 0 = 2 ^ (8 - i) - 1 := by
  interval_cases i <;> rfl

theorem maskD_eq {i : Nat} (h : i ≤ 7) : mask.getD i 0 = 2 ^ (7 - i) := by
  interval_cases i <;> rfl

/-! ## The vint scan -/

theorem vintScan_miss (m off i : Nat) (hi : i < 8) (h : m &&& mask.getD i 0 = 0) :
    vintScan m off i = vintScan m off (i + 1) := by
  have hr : 8 - i = (8 - (i + 1)) + 1 := by omega
  rw [vintScan, hr, vintScanGo, if_neg (not_not_intro h), vintScan]

theorem vintScan_hit (m off i : Nat) (hi : i < 8) (h : m &&& mask.getD i 0 ≠ 0) :
    vintScan m off i = (i, m &&& rest.getD (i + off) 0) := by
  have hr : 8 - i = (8 - (i + 1)) + 1 := by omega
  rw [vintScan, hr, vintScanGo, if_pos h]

/-- For a leading byte whose highest set bit sits at position `8 - n`
(a width-`n` vint, `1 ≤ n ≤ 8`), the scan stops at index `n - 1`. -/
theorem vintScan_eq (off : Nat) {n m : Nat} (h1 : 1 ≤ n) (h8 : n ≤ 8)
    (hlo : 2 ^ (8 - n) ≤ m) (hhi : m < 2 ^ (9 - n)) :
    vintScan m off 0 = (n - 1, m &&& rest.getD (n - 1 + off) 0) := by
  have miss : ∀ i, i < n - 1 → m &&& mask.getD i 0 = 0 := by
    intro i hi
    have h7 : i ≤ 7 := by omega
    rw [maskD_eq h7]
    exact and_two_pow_eq_zero
      (lt_of_lt_of_le hhi (Nat.pow_le_pow_right (by norm_num) (by omega)))
  have hit : m &&& mask.getD (n - 1) 0 ≠ 0 := by
    rw [maskD_eq (by omega)]
    have he : 7 - (n - 1) = 8 - n := by omega
    rw [he]
    have h9 : 8 - n + 1 = 9 - n := by omega
    rw [and_two_pow_self hlo (h9 ▸ hhi)]
    positivity
  interval_cases n
  · exact vintScan_hit m off 0 (by norm_num) hit
  · exact (vintScan_miss m off 0 (by norm_num) (miss 0 (by norm_num))).trans
      (vintScan_hit m off 1 (by norm_num) hit)
  · exact (vintScan_miss m off 0 (by norm_num) (miss 0 (by norm_num))).trans
      ((vintScan_miss m off 1 (by norm_num) (miss 1 (by norm_num))).trans
        (vintScan_hit m off 2 (by norm_num) hit))
  · exact (vintScan_miss m off 0 (by norm_num) (miss 0 (by norm_num))).trans
      ((vintScan_miss m off 1 (by norm_num) (miss 1 (by norm_num))).trans
        ((vintScan_miss m off 2 (by norm_num) (miss 2 (by norm_num))).trans
          (vintScan_hit m off 3 (by norm_num) hit)))
  · exact (vintScan_miss m off 0 (by norm_num) (miss 0 (by norm_num))).trans
      ((vintScan_miss m off 1 (by norm_num) (miss 1 (by norm_num))).trans
        ((vintScan_miss m off 2 (by norm_num) (miss 2 (by norm_num))).trans
          ((vintScan_miss m off 3 (by norm_num) (miss 3 (by norm_num))).trans
            (vintScan_hit m off 4 (by norm_num) hit))))
  · exact (vintScan_miss m off 0 (by norm_num) (miss 0 (by norm_num))).trans
      ((vintScan_miss m off 1 (by norm_num) (miss 1 (by norm_num))).trans
        ((vintScan_miss m off 2 (by norm_num) (miss 2 (by norm_num))).trans
          ((vintScan_miss m off 3 (by norm_num) (miss 3 (by norm_num))).trans
            ((vintScan_miss m off 4 (by norm_num) (miss 4 (by norm_num))).trans
              (vintScan_hit m off 5 (by norm_num) hit)))))
  · exact (vintScan_miss m off 0 (by norm_num) (miss 0 (by norm_num))).trans
      ((vintScan_miss m off 1 (by norm_num) (miss 1 (by norm_num))).trans
        ((vintScan_miss m off 2 (by norm_num) (miss 2 (by norm_num))).trans
          ((vintScan_miss m off 3 (by norm_num) (miss 3 (by norm_num))).trans
            ((vintScan_miss m off 4 (by norm_num) (miss 4 (by norm_num))).trans
              ((vintScan_miss m off 5 (by norm_num) (miss 5 (by norm_num))).trans
                (vintScan_hit m off 6 (by norm_num) hit))))))
  · exact (vintScan_miss m off 0 (by norm_num) (miss 0 (by norm_num))).trans
      ((vintScan_miss m off 1 (by norm_num) (miss 1 (by norm_num))).trans
        ((vintScan_miss m off 2 (by norm_num) (miss 2 (by norm_num))).trans
          ((vintScan_miss m off 3 (by norm_num) (miss 3 (by norm_num))).trans
            ((vintScan_miss m off 4 (by norm_num) (miss 4 (by norm_num))).trans
              ((vintScan_miss m off 5 (by norm_num) (miss 5 (by norm_num))).trans
                ((vintScan_miss m off 6 (by norm_num) (miss 6 (by norm_num))).trans
                  (vintScan_hit m off 7 (by norm_num) hit)))))))

/-! ## Stream lemmas: reading through a known suffix -/

theorem Stream.avail_eq (s : Stream) : s.avail = (s.data.drop s.pos).length := by
  simp [Stream.avail]

theorem Stream.readByte_suffix {s : Stream} {b : Nat} {r : List Nat}
    (hs : s.data.drop s.pos = b :: r) :
    s.readByte = some (b, { s with pos := s.pos + 1 }) := by
  have hlt : s.pos < s.data.length := by
    by_contra hge
    rw [List.drop_eq_nil_iff.2 (by omega)] at hs
    exact List.noConfusion hs
  have hget : s.data[s.pos]? = some b := by
    have := congrArg (fun l => l[0]?) hs
    simpa [List.getElem?_drop] using this
  simp [Stream.readByte, hlt, List.getD_eq_getElem?_getD, hget]

theorem Stream.drop_advance {s : Stream} {bs r : List Nat} (k : Nat)
    (hs : s.data.drop s.pos = bs ++ r) (hk : bs.length = k) :
    s.data.drop (s.pos + k) = r := by
  rw [← List.drop_drop, hs, List.drop_left' hk]

theorem Stream.peek_suffix (s : Stream) {bs r : List Nat} (k : Nat)
    (hs : s.data.drop s.pos = bs ++ r) (hk : bs.length = k) :
    s.peek k = some bs := by
  have ha : k ≤ s.avail := by
    rw [Stream.avail_eq, hs, List.length_append]
    omega
  simp [Stream.peek, ha, hs, List.take_left' hk]

theorem Stream.discard_suffix (s : Stream) {bs r : List Nat} (k : Nat)
    (hs : s.data.drop s.pos = bs ++ r) (hk : bs.length = k) :
    s.discard k = (true, { s with pos := s.pos + k }) := by
  have ha : k ≤ s.avail := by
    rw [Stream.avail_eq, hs, List.length_append]
    omega
  simp [Stream.discard, ha]

/-- Induction over the open-child chain (the nested `Option Decoder` field
has no autogenerated eliminator usable by the `induction` tactic). -/
theorem Decoder.rec_depth {P : Decoder → Prop}
    (h : ∀ l sz i e, (∀ e', e = some e' → P e') → P (.mk l sz i e)) :
    ∀ d, P d := by
  have key : ∀ n d, Decoder.depth d ≤ n → P d := by
    intro n
    induction n with
    | zero =>
      intro d hd
      match d with
      | .mk l sz i none => exact h l sz i none (by intro e' he'; cases he')
      | .mk l sz i (some e) => simp [Decoder.depth] at hd
    | succ n ih =>
      intro d hd
      match d with
      | .mk l sz i none => exact h l sz i none (by intro e' he'; cases he')
      | .mk l sz i (some e) =>
        refine h l sz i (some e) ?_
        intro e' he'
        cases he'
        simp only [Decoder.depth] at hd
        exact ih e (by omega)
  exact fun d => key d.depth d le_rfl

/-! ## Skip on closed chains and in-bounds skips -/

theorem Skip_closed (bn : Nat) (e : Decoder) :
    ∀ s : Stream, e.chainClosed = true → Decoder.Skip bn e s = (none, e, s) := by
  induction e using Decoder.rec_depth with
  | h l sz i elem IH =>
    intro s hc
    cases elem with
    | none =>
      simp only [Decoder.chainClosed, decide_eq_true_eq] at hc
      simp only [Decoder.Skip, Decoder.skipTail, if_pos hc]
    | some e =>
      simp only [Decoder.chainClosed, Bool.and_eq_true, decide_eq_true_eq] at hc
      simp only [Decoder.Skip, IH e rfl s hc.2, Decoder.skipTail, if_pos hc.1]

theorem skip_closed (bn : Nat) (len size idf : Int) (elem : Option Decoder)
    (s : Stream) (hel : closedChain elem = true) :
    Decoder.skip bn (.mk len size idf elem) s = (none, .mk len size idf elem, s) := by
  cases elem with
  | none => rfl
  | some e =>
    simp only [closedChain, Option.all] at hel
    simp only [Decoder.skip, Skip_closed bn e s hel]

/-- `Skip` on a childless cursor with `0 ≤ remaining`, when the source still
holds at least `remaining` bytes: it succeeds, zeroes `remaining`, and
advances the stream by exactly `remaining`, regardless of the buffered count
and of seekability. -/
theorem Skip_inBounds (bn : Nat) (len size idf : Int) (s : Stream)
    (h0 : 0 ≤ len) (hav : len ≤ (s.avail : Int)) :
    Decoder.Skip bn (.mk len size idf none) s =
      (none, .mk 0 size idf none, { s with pos := s.pos + len.toNat }) := by
  simp only [Decoder.Skip, Decoder.skipTail]
  by_cases hl : len ≤ 0
  · have hl0 : len = 0 := le_antisymm hl h0
    subst hl0
    simp
  · rw [if_neg hl]
    by_cases hseek : s.seekable && decide ((bn : Int) < len)
    · rw [if_pos hseek]
      rfl
    · rw [if_neg hseek]
      have hdc : s.discard len.toNat = (true, { s with pos := s.pos + len.toNat }) := by
        rw [Stream.discard, if_pos (by omega)]
      rw [hdc]

/-! ## Parsing a well-formed vint through `readVint` -/

/-- A cursor whose open-child chain is fully consumed parses a width-`n`
vint whose bytes sit at the head of the stream: no error, value
`combineBytes v₀ bs` where `v₀` is the masked leading byte, Go's returned
count is `n - 1`, `dec.len` drops by `n`, and exactly `n` stream bytes are
consumed.  The guard disjunct `size ≤ 0` covers unbounded cursors, for which
`readVint` performs no length checks. -/
theorem readVint_spec (bn off : Nat) {n : Nat} (h1 : 1 ≤ n) (h8 : n ≤ 8)
    {m : Nat} (hlo : 2 ^ (8 - n) ≤ m) (hhi : m < 2 ^ (9 - n))
    (len size idf : Int) (elem : Option Decoder)
    (hguard : (n : Int) ≤ len ∨ size ≤ 0) (hel : closedChain elem = true)
    {s : Stream} {bs tl : List Nat} (hbs : bs.length = n - 1)
    (hs : s.data.drop s.pos = m :: (bs ++ tl)) :
    Decoder.readVint bn off (.mk len size idf elem) s =
      (none, (combineBytes (m &&& rest.getD (n - 1 + off) 0) bs : Int), n - 1,
        .mk (len - n) size idf elem, { s with pos := s.pos + n }) := by
  have hskip := skip_closed bn len size idf elem s hel
  have hn1' : (1 : Int) ≤ (n : Int) := by exact_mod_cast h1
  have hnotlt : ¬(len < 1 ∧ 0 < size) := by
    rcases hguard with h | h
    · intro hcon
      omega
    · intro hcon
      omega
  have hrb := Stream.readByte_suffix hs
  have hscan := vintScan_eq off h1 h8 hlo hhi
  have hdrop1 : ({ s with pos := s.pos + 1 } : Stream).data.drop
      ({ s with pos := s.pos + 1 } : Stream).pos = bs ++ tl := by
    show s.data.drop (s.pos + 1) = bs ++ tl
    rw [← List.drop_drop, hs]
    rfl
  rw [Decoder.readVint, hskip]
  simp only [hnotlt, if_false, hrb, hscan]
  by_cases hn1 : n = 1
  · subst hn1
    have hbs0 : bs = [] := List.length_eq_zero.1 hbs
    subst hbs0
    simp [combineBytes]
  · have hn2 : 2 ≤ n := by omega
    have hpos : 0 < n - 1 := by omega
    have hcast : ((n - 1 : Nat) : Int) = (n : Int) - 1 := by
      push_cast [Nat.cast_sub h1]
      ring
    have hnotlt2 : ¬(len - 1 < ((n - 1 : Nat) : Int) ∧ 0 < size) := by
      rw [hcast]
      rcases hguard with h | h
      · intro hcon
        omega
      · intro hcon
        omega
    have hpeek := Stream.peek_suffix { s with pos := s.pos + 1 } (n - 1) hdrop1 hbs
    have hdisc := Stream.discard_suffix { s with pos := s.pos + 1 } (n - 1) hdrop1 hbs
    have hlen' : len - 1 - ((n - 1 : Nat) : Int) = len - n := by
      rw [hcast]
      ring
    have hpos' : s.pos + 1 + (n - 1) = s.pos + n := by omega
    simp only [hpos, if_true, hnotlt2, if_false, hpeek, hdisc]
    rw [hlen', hpos']

/-! ## Arithmetic of the masked leading byte -/

theorem and_rest_id {n m : Nat} (h1 : 1 ≤ n) (h8 : n ≤ 8)
    (hhi : m < 2 ^ (9 - n)) : m &&& rest.getD (n - 1 + 0) 0 = m := by
  have hle : n - 1 ≤ 8 := by omega
  rw [Nat.add_zero, restD_eq hle, show 8 - (n - 1) = 9 - n by omega,
    Nat.and_pow_two_sub_one_eq_mod, Nat.mod_eq_of_lt hhi]

theorem and_rest_size {n m : Nat} (h1 : 1 ≤ n) (h8 : n ≤ 8)
    (hlo : 2 ^ (8 - n) ≤ m) (hhi : m < 2 ^ (9 - n)) :
    m &&& rest.getD (n - 1 + 1) 0 = m - 2 ^ (8 - n) := by
  have hle : n - 1 + 1 ≤ 8 := by omega
  have h2 : (2 : Nat) ^ (9 - n) = 2 * 2 ^ (8 - n) := by
    rw [show 9 - n = (8 - n) + 1 by omega, pow_succ]
    ring
  rw [restD_eq hle, show 8 - (n - 1 + 1) = 8 - n by omega,
    Nat.and_pow_two_sub_one_eq_mod, Nat.mod_eq_sub_mod hlo,
    Nat.mod_eq_of_lt (by omega)]

/-- The leading byte of a well-formed width-`n` encoding and its range. -/
theorem beBytes_head {n X : Nat} (h1 : 1 ≤ n)
    (hlo : 2 ^ (7 * n) ≤ X) (hhi : X < 2 ^ (7 * n + 1)) (h8 : n ≤ 8) :
    beBytes n X = X / 256 ^ (n - 1) :: beBytes (n - 1) X ∧
      2 ^ (8 - n) ≤ X / 256 ^ (n - 1) ∧ X / 256 ^ (n - 1) < 2 ^ (9 - n) := by
  have hp : (0 : Nat) < 256 ^ (n - 1) := Nat.pos_pow_of_pos _ (by norm_num)
  have hkeylo : (2 : Nat) ^ (8 - n) * 256 ^ (n - 1) = 2 ^ (7 * n) := by
    rw [show (256 : Nat) = 2 ^ 8 from rfl, ← pow_mul, ← pow_add]
    congr 1
    omega
  have hkeyhi : (2 : Nat) ^ (9 - n) * 256 ^ (n - 1) = 2 ^ (7 * n + 1) := by
    rw [show (256 : Nat) = 2 ^ 8 from rfl, ← pow_mul, ← pow_add]
    congr 1
    omega
  have hmlo : 2 ^ (8 - n) ≤ X / 256 ^ (n - 1) :=
    (Nat.le_div_iff_mul_le hp).2 (by rw [hkeylo]; exact hlo)
  have hmhi : X / 256 ^ (n - 1) < 2 ^ (9 - n) :=
    (Nat.div_lt_iff_lt_mul hp).2 (by rw [hkeyhi]; exact hhi)
  refine ⟨?_, hmlo, hmhi⟩
  have hXlt : X < 256 ^ n := by
    calc X < 2 ^ (7 * n + 1) := hhi
      _ ≤ 2 ^ (8 * n) := Nat.pow_le_pow_right (by norm_num) (by omega)
      _ = 256 ^ n := by rw [show (256 : Nat) = 2 ^ 8 from rfl, ← pow_mul]
  have hmb : X / 256 ^ (n - 1) < 256 := by
    have : X < 256 * 256 ^ (n - 1) := by
      calc X < 256 ^ n := hXlt
        _ = 256 * 256 ^ (n - 1) := by
          rw [← pow_succ']
          congr 1
          omega
    exact (Nat.div_lt_iff_lt_mul hp).2 (by omega)
  have := beBytes_cons (n - 1) X
  rw [show n - 1 + 1 = n by omega] at this
  rw [this, Nat.mod_eq_of_lt hmb]

/-- Parsing the `n`-byte big-endian rendering of a value `X` that carries its
width marker on top: `readVint` consumes exactly `n` bytes and returns the
masked leading byte combined big-endian with the remaining `n - 1` bytes. -/
theorem readVint_beBytes (bn off : Nat) {n : Nat} (h1 : 1 ≤ n) (h8 : n ≤ 8)
    (len size idf : Int) (hlen : (n : Int) ≤ len)
    {X : Nat} (hlo : 2 ^ (7 * n) ≤ X) (hhi : X < 2 ^ (7 * n + 1))
    {s : Stream} {tl : List Nat}
    (hs : s.data.drop s.pos = beBytes n X ++ tl) :
    Decoder.readVint bn off (.mk len size idf none) s =
      (none, (combineBytes (X / 256 ^ (n - 1) &&& rest.getD (n - 1 + off) 0)
          (beBytes (n - 1) X) : Int), n - 1,
        .mk (len - n) size idf none, { s with pos := s.pos + n }) := by
  obtain ⟨hdec, hmlo, hmhi⟩ := beBytes_head h1 hlo hhi h8
  rw [hdec] at hs
  exact readVint_spec bn off h1 h8 hmlo hmhi len size idf none (Or.inl hlen) rfl
    (by rw [beBytes_length]) (by simpa using hs)

/-! ## Claims C3, C6, C8: the vint codec -/

/-- C3 (counterexample): decoding the valid width-1 id encoding `0x81` with
the id-kind mask returns `0x81` itself — the width-marker bit is *kept* — not
the marker-cleared residual `0x01` that the claim's "clears exactly the
width-marker bit" predicts. -/
theorem c3_counterexample :
    Decoder.readVint 0 0 (.mk 0 0 0 none) ⟨[0x81], 0, false⟩ =
      (none, 129, 0, .mk (-1) 0 0 none, ⟨[0x81], 1, false⟩) ∧
    claimIdResidual 1 0x81 = 1 ∧
    (129 : Int) ≠ (claimIdResidual 1 0x81 : Int) :=
  ⟨rfl, rfl, by decide⟩

/-- C3 (amended): for every width-`n` leading byte (`1 ≤ n ≤ 8`,
`2^(8-n) ≤ m < 2^(9-n)`), the id-kind mask keeps the leading byte whole —
marker bit included — while the size-kind mask clears exactly the marker bit
and nothing else, yielding the pure magnitude below it. -/
theorem c3_amended_mask_semantics {n m : Nat} (h1 : 1 ≤ n) (h8 : n ≤ 8)
    (hlo : 2 ^ (8 - n) ≤ m) (hhi : m < 2 ^ (9 - n)) :
    vintScan m 0 0 = (n - 1, m) ∧
    vintScan m 1 0 = (n - 1, m - 2 ^ (8 - n)) := by
  constructor
  · rw [vintScan_eq 0 h1 h8 hlo hhi, and_rest_id h1 h8 hhi]
  · rw [vintScan_eq 1 h1 h8 hlo hhi, and_rest_size h1 h8 hlo hhi]

/-- Witness for the amended C3 at the width-2 leading byte `0x7F`. -/
theorem c3_amended_mask_semantics_witness :
    vintScan 0x7F 0 0 = (1, 0x7F) ∧ vintScan 0x7F 1 0 = (1, 0x3F) :=
  @c3_amended_mask_semantics 2 0x7F (by norm_num) (by norm_num)
    (by norm_num) (by norm_num)

/-- C6: a leading byte `0x00` (no bit set in any of the 8 positions) is not
rejected.  The `range mask` loop falls through leaving `n = 7`, so `readVint`
silently decodes the next seven bytes as a width-8 value (here 42) with no
error, where the spec requires a format error. -/
theorem c6_zero_leading_byte_accepted :
    vintScan 0x00 0 0 = (7, 0) ∧
    Decoder.readVint 0 0 (.mk 0 0 0 none)
        ⟨[0x00, 0, 0, 0, 0, 0, 0, 0x2A], 0, false⟩ =
      (none, 42, 7, .mk (-8) 0 0 none,
        ⟨[0x00, 0, 0, 0, 0, 0, 0, 0x2A], 8, false⟩) :=
  ⟨rfl, rfl⟩

/-- C8: for every width `1 ≤ n ≤ 8`, decoding the reference encoding of a
size `x < 2^(7n)` with the size-kind mask returns exactly `x`, and decoding
the reference encoding of an id `2^(7n) ≤ y < 2^(7n+1)` with the id-kind mask
returns exactly `y`; both consume exactly the `n` encoded bytes. -/
theorem c8_vint_roundtrip (bn : Nat) {n : Nat} (h1 : 1 ≤ n) (h8 : n ≤ 8)
    (len size idf : Int) (hlen : (n : Int) ≤ len)
    {x : Nat} (hx : x < 2 ^ (7 * n))
    {y : Nat} (hy1 : 2 ^ (7 * n) ≤ y) (hy2 : y < 2 ^ (7 * n + 1))
    {s1 s0 : Stream} {t1 t0 : List Nat}
    (hs1 : s1.data.drop s1.pos = encodeVintSize n x ++ t1)
    (hs0 : s0.data.drop s0.pos = encodeVintId n y ++ t0) :
    Decoder.readVint bn 1 (.mk len size idf none) s1 =
      (none, (x : Int), n - 1, .mk (len - n) size idf none,
        { s1 with pos := s1.pos + n }) ∧
    Decoder.readVint bn 0 (.mk len size idf none) s0 =
      (none, (y : Int), n - 1, .mk (len - n) size idf none,
        { s0 with pos := s0.pos + n }) := by
  have hp : (0 : Nat) < 256 ^ (n - 1) := Nat.pos_pow_of_pos _ (by norm_num)
  have hkey : (2 : Nat) ^ (8 - n) * 256 ^ (n - 1) = 2 ^ (7 * n) := by
    rw [show (256 : Nat) = 2 ^ 8 from rfl, ← pow_mul, ← pow_add]
    congr 1
    omega
  constructor
  · rw [encodeVintSize] at hs1
    have hXlo : 2 ^ (7 * n) ≤ 2 ^ (7 * n) + x := Nat.le_add_right _ _
    have hXhi : 2 ^ (7 * n) + x < 2 ^ (7 * n + 1) := by
      rw [pow_succ]
      omega
    rw [readVint_beBytes bn 1 h1 h8 len size idf hlen hXlo hXhi hs1]
    obtain ⟨_, hmlo, hmhi⟩ := beBytes_head h1 hXlo hXhi h8
    have hXsplit : 2 ^ (7 * n) + x = 256 ^ (n - 1) * 2 ^ (8 - n) + x := by
      rw [← hkey]
      ring
    have hm : (2 ^ (7 * n) + x) / 256 ^ (n - 1) = 2 ^ (8 - n) + x / 256 ^ (n - 1) := by
      rw [hXsplit, Nat.mul_add_div hp]
    have hval : combineBytes
        ((2 ^ (7 * n) + x) / 256 ^ (n - 1) &&& rest.getD (n - 1 + 1) 0)
        (beBytes (n - 1) (2 ^ (7 * n) + x)) = x := by
      rw [and_rest_size h1 h8 hmlo hmhi, combineBytes_beBytes, hm]
      have hmod : (2 ^ (7 * n) + x) % 256 ^ (n - 1) = x % 256 ^ (n - 1) := by
        rw [hXsplit, Nat.mul_add_mod]
      rw [hmod, Nat.add_sub_cancel_left, Nat.mul_comm]
      exact Nat.div_add_mod x (256 ^ (n - 1))
    rw [hval]
  · rw [encodeVintId] at hs0
    rw [readVint_beBytes bn 0 h1 h8 len size idf hlen hy1 hy2 hs0]
    obtain ⟨_, hmlo, hmhi⟩ := beBytes_head h1 hy1 hy2 h8
    have hval : combineBytes (y / 256 ^ (n - 1) &&& rest.getD (n - 1 + 0) 0)
        (beBytes (n - 1) y) = y := by
      rw [and_rest_id h1 h8 hmhi, combineBytes_beBytes, Nat.mul_comm]
      exact Nat.div_add_mod y (256 ^ (n - 1))
    rw [hval]

/-- Witness for C8 at width 2: the size 5 encodes as `[0x40, 0x05]` and the
id `0x4003 = 16387` as `[0x40, 0x03]`; both decode back exactly. -/
theorem c8_vint_roundtrip_witness :
    Decoder.readVint 0 1 (.mk 8 0 0 none) ⟨[0x40, 0x05], 0, false⟩ =
      (none, 5, 1, .mk 6 0 0 none, ⟨[0x40, 0x05], 2, false⟩) ∧
    Decoder.readVint 0 0 (.mk 8 0 0 none) ⟨[0x40, 0x03], 0, false⟩ =
      (none, 16387, 1, .mk 6 0 0 none, ⟨[0x40, 0x03], 2, false⟩) := by
  have h := @c8_vint_roundtrip 0 2 (by norm_num) (by norm_num) 8 0 0
    (by norm_num) 5 (by norm_num) 16387 (by norm_num) (by norm_num)
    ⟨[0x40, 0x05], 0, false⟩ ⟨[0x40, 0x03], 0, false⟩ [] [] rfl rfl
  exact ⟨h.1, h.2⟩

/-! ## The cursor invariant (claims C1, C2, C7, C10) -/

theorem Decoder.wfb_mk (l sz i : Int) (e : Option Decoder) :
    (Decoder.mk l sz i e).wfb = (decide (l ≤ sz) && e.all Decoder.wfb) := by
  cases e <;> simp [Decoder.wfb, Option.all]

theorem skipTail_wfb {bn : Nat} {len size id : Int} {elem : Option Decoder}
    {s : Stream} (hls : len ≤ size) (he : elem.all Decoder.wfb = true) :
    ((Decoder.skipTail bn len size id elem s).2.1).wfb = true := by
  rw [Decoder.skipTail]
  split
  · simp [Decoder.wfb_mk, hls, he]
  · split
    · simp only [Decoder.wfb_mk, he, Bool.and_true]
      simp only [decide_eq_true_eq]
      omega
    · rcases hd : s.discard len.toNat with ⟨ok, s2⟩
      cases ok <;> simp only [Decoder.wfb_mk, he, Bool.and_true, decide_eq_true_eq] <;> omega

theorem Skip_wfb (bn : Nat) (d : Decoder) :
    ∀ s : Stream, d.wfb = true → ((Decoder.Skip bn d s).2.1).wfb = true := by
  induction d using Decoder.rec_depth with
  | h l sz i e IH =>
    intro s hw
    rw [Decoder.wfb_mk] at hw
    simp only [Bool.and_eq_true, decide_eq_true_eq] at hw
    cases e with
    | none => exact skipTail_wfb hw.1 (by simp [Option.all])
    | some e =>
      have hew : e.wfb = true := by simpa [Option.all] using hw.2
      rw [Decoder.Skip]
      rcases hsk : Decoder.Skip bn e s with ⟨err, e', s'⟩
      have he' : e'.wfb = true := by
        have := IH e rfl s hew
        rw [hsk] at this
        exact this
      cases err with
      | some err => simp [Decoder.wfb_mk, hw.1, he', Option.all]
      | none => exact skipTail_wfb hw.1 (by simpa [Option.all] using he')

theorem skip_wfb (bn : Nat) (d : Decoder) (s : Stream) (hw : d.wfb = true) :
    ((Decoder.skip bn d s).2.1).wfb = true := by
  match d with
  | .mk l sz i none => simpa [Decoder.skip] using hw
  | .mk l sz i (some e) =>
    rw [Decoder.wfb_mk] at hw
    simp only [Bool.and_eq_true, decide_eq_true_eq] at hw
    have hew : e.wfb = true := by simpa [Option.all] using hw.2
    rw [Decoder.skip]
    rcases hsk : Decoder.Skip bn e s with ⟨err, e', s'⟩
    have he' : e'.wfb = true := by
      have := Skip_wfb bn e s hew
      rw [hsk] at this
      exact this
    simp [Decoder.wfb_mk, hw.1, he', Option.all]

theorem readVint_wfb (bn off : Nat) (d : Decoder) (s : Stream) (hw : d.wfb = true) :
    ((Decoder.readVint bn off d s).2.2.2.1).wfb = true := by
  rcases hsk : Decoder.skip bn d s with ⟨err, ⟨len, size, idf, elem⟩, s'⟩
  have hw' : (Decoder.mk len size idf elem).wfb = true := by
    have := skip_wfb bn d s hw
    rw [hsk] at this
    exact this
  rw [Decoder.wfb_mk] at hw'
  simp only [Bool.and_eq_true, decide_eq_true_eq] at hw'
  have hwmk : ∀ l : Int, l ≤ size → (Decoder.mk l size idf elem).wfb = true := by
    intro l hl
    rw [Decoder.wfb_mk]
    simp [hl, hw'.2]
  cases err with
  | some e =>
    simp only [Decoder.readVint, hsk]
    exact hwmk len hw'.1
  | none =>
    simp only [Decoder.readVint, hsk]
    split
    · exact hwmk len hw'.1
    · rcases hrb : s'.readByte with _ | ⟨m, s1⟩ <;> simp only [hrb]
      · exact hwmk len hw'.1
      · rcases hvs : vintScan m off 0 with ⟨n, v0⟩
        simp only [hvs]
        split
        · split
          · exact hwmk (len - 1) (by omega)
          · rcases hpk : s1.peek n with _ | bs <;> simp only [hpk]
            · exact hwmk (len - 1) (by omega)
            · rcases hdc : s1.discard n with ⟨ok, s2⟩
              cases ok with
              | true => exact hwmk (len - 1 - n) (by omega)
              | false => exact hwmk (len - 1) (by omega)
        · exact hwmk (len - 1) (by omega)

theorem Next_wfb (bn : Nat) (d : Decoder) (s : Stream) (hw : d.wfb = true) :
    ((Decoder.Next bn d s).2.2.2.1).wfb = true := by
  rcases hsk : Decoder.skip bn d s with ⟨err, d0, s0⟩
  have hw0 : d0.wfb = true := by
    have := skip_wfb bn d s hw
    rw [hsk] at this
    exact this
  cases err with
  | some e => simpa only [Decoder.Next, hsk] using hw0
  | none =>
    rcases hv1 : Decoder.readVint bn 0 d0 s0 with ⟨err1, idv, k1, d1, s1⟩
    have hw1 : d1.wfb = true := by
      have := readVint_wfb bn 0 d0 s0 hw0
      rw [hv1] at this
      exact this
    cases err1 with
    | some e => simpa only [Decoder.Next, hsk, hv1] using hw1
    | none =>
      rcases hv2 : Decoder.readVint bn 1 d1 s1 with ⟨err2, sizev, k2, ⟨l2, sz2, i2, e2⟩, s2⟩
      have hw2 : (Decoder.mk l2 sz2 i2 e2).wfb = true := by
        have := readVint_wfb bn 1 d1 s1 hw1
        rw [hv2] at this
        exact this
      cases err2 with
      | some e => simpa only [Decoder.Next, hsk, hv1, hv2] using hw2
      | none =>
        rw [Decoder.wfb_mk] at hw2
        simp only [Bool.and_eq_true, decide_eq_true_eq] at hw2
        simp only [Decoder.Next, hsk, hv1, hv2]
        split
        · rw [Decoder.wfb_mk]
          simp [hw2.1, hw2.2]
        · split
          · rw [Decoder.wfb_mk]
            simp [hw2.1, hw2.2]
          · split
            · rw [Decoder.wfb_mk]
              simp [hw2.1, hw2.2]
            · simp only [Decoder.size, Decoder.len, Decoder.id]
              rw [Decoder.wfb_mk]
              simp only [Option.all, Decoder.wfb_mk, Bool.and_eq_true, decide_eq_true_eq]
              exact ⟨by omega, by simp [Decoder.wfb_mk]⟩

theorem readFill_wfb (req : Nat) (len size id : Int) (elem : Option Decoder)
    (s : Stream) (hls : len ≤ size) (he : elem.all Decoder.wfb = true) :
    ((Decoder.readFill req len size id elem s).2.2.1).wfb = true := by
  rw [Decoder.readFill]
  split <;> simp only [Decoder.wfb_mk, he, Bool.and_true, decide_eq_true_eq] <;> omega

theorem Read_wfb (bn k : Nat) (d : Decoder) (s : Stream) (hw : d.wfb = true) :
    ((Decoder.Read bn k d s).2.2.1).wfb = true := by
  rcases hsk : Decoder.skip bn d s with ⟨err, ⟨len, size, idf, elem⟩, s'⟩
  have hw' : (Decoder.mk len size idf elem).wfb = true := by
    have := skip_wfb bn d s hw
    rw [hsk] at this
    exact this
  rw [Decoder.wfb_mk] at hw'
  simp only [Bool.and_eq_true, decide_eq_true_eq] at hw'
  cases err with
  | some e =>
    simp only [Decoder.Read, hsk]
    rw [Decoder.wfb_mk]
    simp [hw'.1, hw'.2]
  | none =>
    simp only [Decoder.Read, hsk]
    split
    · split
      · rw [Decoder.wfb_mk]
        simp [hw'.1, hw'.2]
      · exact readFill_wfb _ _ _ _ _ _ hw'.1 hw'.2
    · exact readFill_wfb _ _ _ _ _ _ hw'.1 hw'.2

theorem ReadInt_wfb (bn : Nat) (d : Decoder) (s : Stream) (hw : d.wfb = true) :
    ((Decoder.ReadInt bn d s).2.2.1).wfb = true := by
  rcases hsk : Decoder.skip bn d s with ⟨err, ⟨len, size, idf, elem⟩, s'⟩
  have hw' : (Decoder.mk len size idf elem).wfb = true := by
    have := skip_wfb bn d s hw
    rw [hsk] at this
    exact this
  rw [Decoder.wfb_mk] at hw'
  simp only [Bool.and_eq_true, decide_eq_true_eq] at hw'
  have hwmk : ∀ l : Int, l ≤ size → (Decoder.mk l size idf elem).wfb = true := by
    intro l hl
    rw [Decoder.wfb_mk]
    simp [hl, hw'.2]
  cases err with
  | some e =>
    simp only [Decoder.ReadInt, hsk]
    exact hwmk len hw'.1
  | none =>
    simp only [Decoder.ReadInt, hsk]
    split
    · exact hwmk len hw'.1
    · rcases hpk : s'.peek len.toNat with _ | b <;> simp only [hpk]
      · exact hwmk len hw'.1
      · rcases hdc : s'.discard len.toNat with ⟨ok, s2⟩
        cases ok with
        | true => exact hwmk 0 (by omega)
        | false => exact hwmk len hw'.1

theorem ReadFloat_wfb (bn : Nat) (d : Decoder) (s : Stream) (hw : d.wfb = true) :
    ((Decoder.ReadFloat bn d s).2.2.1).wfb = true := by
  rcases hsk : Decoder.skip bn d s with ⟨err, ⟨len, size, idf, elem⟩, s'⟩
  have hw' : (Decoder.mk len size idf elem).wfb = true := by
    have := skip_wfb bn d s hw
    rw [hsk] at this
    exact this
  rw [Decoder.wfb_mk] at hw'
  simp only [Bool.and_eq_true, decide_eq_true_eq] at hw'
  have hwmk : ∀ l : Int, l ≤ size → (Decoder.mk l size idf elem).wfb = true := by
    intro l hl
    rw [Decoder.wfb_mk]
    simp [hl, hw'.2]
  cases err with
  | some e =>
    simp only [Decoder.ReadFloat, hsk]
    exact hwmk len hw'.1
  | none =>
    simp only [Decoder.ReadFloat, hsk]
    split
    · rcases hpk : s'.peek len.toNat with _ | b <;> simp only [hpk]
      · exact hwmk len hw'.1
      · rcases hdc : s'.discard len.toNat with ⟨ok, s2⟩
        cases ok with
        | true =>
          rename_i hlen48
          exact hwmk 0 (by omega)
        | false => exact hwmk len hw'.1
    · exact hwmk len hw'.1

theorem ReadBool_wfb (bn : Nat) (d : Decoder) (s : Stream) (hw : d.wfb = true) :
    ((Decoder.ReadBool bn d s).2.2.1).wfb = true := by
  rcases hri : Decoder.ReadInt bn d s with ⟨err, v, d', s'⟩
  have hw' : d'.wfb = true := by
    have := ReadInt_wfb bn d s hw
    rw [hri] at this
    exact this
  cases err <;> simpa only [Decoder.ReadBool, hri] using hw'

theorem ReadTime_wfb (bn : Nat) (d : Decoder) (s : Stream) (hw : d.wfb = true) :
    ((Decoder.ReadTime bn d s).2.2.1).wfb = true :=
  ReadInt_wfb bn d s hw

theorem ReadBytes_wfb (bn : Nat) (d : Decoder) (s : Stream) (hw : d.wfb = true) :
    ((Decoder.ReadBytes bn d s).2.2.1).wfb = true := by
  rcases hsk : Decoder.skip bn d s with ⟨err, d', s'⟩
  have hw' : d'.wfb = true := by
    have := skip_wfb bn d s hw
    rw [hsk] at this
    exact this
  cases err with
  | some e => simpa only [Decoder.ReadBytes, hsk] using hw'
  | none =>
    simp only [Decoder.ReadBytes, hsk]
    split
    · exact hw'
    · rcases hrd : Decoder.Read bn d'.len.toNat d' s' with ⟨err2, bs, d2, s2⟩
      have hw2 : d2.wfb = true := by
        have := Read_wfb bn d'.len.toNat d' s' hw'
        rw [hrd] at this
        exact this
      cases err2 <;> exact hw2

theorem ReadString_wfb (bn : Nat) (d : Decoder) (s : Stream) (hw : d.wfb = true) :
    ((Decoder.ReadString bn d s).2.2.1).wfb = true :=
  ReadBytes_wfb bn d s hw

theorem applyOp_wfb (bn : Nat) (op : Op) (d : Decoder) (s : Stream)
    (hw : d.wfb = true) : ((Decoder.applyOp bn op d s).2.1).wfb = true := by
  cases op with
  | next =>
    rcases h : Decoder.Next bn d s with ⟨err, i, c, d', s'⟩
    have := Next_wfb bn d s hw
    rw [h] at this
    simpa only [Decoder.applyOp, h] using this
  | read k =>
    rcases h : Decoder.Read bn k d s with ⟨err, bs, d', s'⟩
    have := Read_wfb bn k d s hw
    rw [h] at this
    simpa only [Decoder.applyOp, h] using this
  | skipAll => exact Skip_wfb bn d s hw
  | readInt =>
    rcases h : Decoder.ReadInt bn d s with ⟨err, v, d', s'⟩
    have := ReadInt_wfb bn d s hw
    rw [h] at this
    simpa only [Decoder.applyOp, h] using this
  | readFloat =>
    rcases h : Decoder.ReadFloat bn d s with ⟨err, v, d', s'⟩
    have := ReadFloat_wfb bn d s hw
    rw [h] at this
    simpa only [Decoder.applyOp, h] using this
  | readBool =>
    rcases h : Decoder.ReadBool bn d s with ⟨err, v, d', s'⟩
    have := ReadBool_wfb bn d s hw
    rw [h] at this
    simpa only [Decoder.applyOp, h] using this
  | readTime =>
    rcases h : Decoder.ReadTime bn d s with ⟨err, v, d', s'⟩
    have := ReadTime_wfb bn d s hw
    rw [h] at this
    simpa only [Decoder.applyOp, h] using this
  | readBytes =>
    rcases h : Decoder.ReadBytes bn d s with ⟨err, v, d', s'⟩
    have := ReadBytes_wfb bn d s hw
    rw [h] at this
    simpa only [Decoder.applyOp, h] using this
  | readString =>
    rcases h : Decoder.ReadString bn d s with ⟨err, v, d', s'⟩
    have := ReadString_wfb bn d s hw
    rw [h] at this
    simpa only [Decoder.applyOp, h] using this

theorem applyAt_wfb (bn : Nat) (depth : Nat) (op : Op) (d : Decoder) (s : Stream)
    (hw : d.wfb = true) : ((Decoder.applyAt bn depth op d s).2.1).wfb = true := by
  induction depth generalizing d s with
  | zero => exact applyOp_wfb bn op d s hw
  | succ k ih =>
    match d, hw with
    | .mk len size idf none, hw => simpa [Decoder.applyAt] using hw
    | .mk len size idf (some e), hw =>
      rw [Decoder.wfb_mk] at hw
      simp only [Bool.and_eq_true, decide_eq_true_eq] at hw
      have hew : e.wfb = true := by simpa [Option.all] using hw.2
      rcases h : Decoder.applyAt bn k op e s with ⟨err, e', s'⟩
      have he' : e'.wfb = true := by
        have := ih e s hew
        rw [h] at this
        exact this
      simp only [Decoder.applyAt, h]
      rw [Decoder.wfb_mk]
      simp [hw.1, he', Option.all]

/-- C2 (amended): `remaining ≤ totalSize` holds for every cursor in the open
chain after any sequence of operations, applied at any depth, with any
buffered-byte observations — including operations that returned an error. -/
theorem c2_amended_remaining_le_total (ops : List (Nat × Nat × Op))
    (d : Decoder) (s : Stream) (hw : d.wfb = true) :
    ((runOps ops d s).2.1).wfb = true := by
  induction ops generalizing d s with
  | nil => simpa [runOps] using hw
  | cons x ops ih =>
    rcases x with ⟨bn, depth, op⟩
    rcases h : Decoder.applyAt bn depth op d s with ⟨err, d', s'⟩
    have hw' : d'.wfb = true := by
      have := applyAt_wfb bn depth op d s hw
      rw [h] at this
      exact this
    rcases h2 : runOps ops d' s' with ⟨errs, d2, s2⟩
    have hfin := ih d' s' hw'
    rw [h2] at hfin
    simp only [runOps, h, h2]
    exact hfin

/-- Witness for the amended C2: a concrete three-operation run from a fresh
root preserves the invariant. -/
theorem c2_amended_remaining_le_total_witness :
    (Decoder.mk 0 0 0 none).wfb = true ∧
    ((runOps [(0, 0, .next), (0, 1, .next), (0, 1, .next)] (.mk 0 0 0 none)
      ⟨[0x81, 0x8A, 0x82, 0x86, 1, 2, 3, 4, 5, 6, 0x83, 0x85], 0, false⟩).2.1).wfb = true :=
  ⟨rfl, c2_amended_remaining_le_total _ _ _ rfl⟩

/-- C2 (counterexample): a run of three operations, all returning without
error, after which the cursor opened with declared size 10 has
`remaining = -5 < 0` and holds an open child of `totalSize = 5`, although its
remaining bound at the moment the child was opened was `0`.  Both halves of
the claimed invariant fail on the code. -/
theorem c2_counterexample :
    runOps [(0, 0, .next), (0, 1, .next), (0, 1, .next)] (.mk 0 0 0 none)
        ⟨[0x81, 0x8A, 0x82, 0x86, 1, 2, 3, 4, 5, 6, 0x83, 0x85], 0, false⟩ =
      ([none, none, none],
        .mk (-12) 0 0 (some (.mk (-5) 10 129 (some (.mk 5 5 131 none)))),
        ⟨[0x81, 0x8A, 0x82, 0x86, 1, 2, 3, 4, 5, 6, 0x83, 0x85], 12, false⟩) ∧
    ((-5 : Int) < 0) :=
  ⟨rfl, by decide⟩

/-- C1 (counterexample): the same stream as in the C2 run.  After two
operations the child cursor opened with declared size 10 has `remaining = 2`;
the next header declares size 5 — larger than the remaining bound 2 but
within the total declared size 10 — and `Next` succeeds, returning a fresh
child cursor of size 5 instead of the claimed format error. -/
theorem c1_counterexample :
    runOps [(0, 0, .next), (0, 1, .next)] (.mk 0 0 0 none)
        ⟨[0x81, 0x8A, 0x82, 0x86, 1, 2, 3, 4, 5, 6, 0x83, 0x85], 0, false⟩ =
      ([none, none],
        .mk (-12) 0 0 (some (.mk 2 10 129 (some (.mk 6 6 130 none)))),
        ⟨[0x81, 0x8A, 0x82, 0x86, 1, 2, 3, 4, 5, 6, 0x83, 0x85], 4, false⟩) ∧
    Decoder.Next 0 (.mk 2 10 129 (some (.mk 6 6 130 none)))
        ⟨[0x81, 0x8A, 0x82, 0x86, 1, 2, 3, 4, 5, 6, 0x83, 0x85], 4, false⟩ =
      (none, 131, some (.mk 5 5 131 none),
        .mk (-5) 10 129 (some (.mk 5 5 131 none)),
        ⟨[0x81, 0x8A, 0x82, 0x86, 1, 2, 3, 4, 5, 6, 0x83, 0x85], 12, false⟩) :=
  ⟨rfl, rfl⟩

/-- C1 (amended): when the decoded header is well-formed (`id ≠ 0`), `Next`
returns `ErrFormat` and no child cursor exactly when the declared size
exceeds the cursor's positive *total* declared size — the check is
`dec.size < size && 0 < dec.size`; the remaining bound is not consulted. -/
theorem c1_amended_total_size_check (bn : Nat) (d d0 d1 d2 : Decoder)
    (s s0 s1 s2 : Stream) (idv sizev : Int) (k1 k2 : Nat)
    (hskip : Decoder.skip bn d s = (none, d0, s0))
    (hid : Decoder.readVint bn 0 d0 s0 = (none, idv, k1, d1, s1))
    (hsize : Decoder.readVint bn 1 d1 s1 = (none, sizev, k2, d2, s2))
    (hv : ¬(idv = 0 ∨ sizev < 0))
    (hbound : d2.size < sizev ∧ 0 < d2.size) :
    Decoder.Next bn d s = (some .format, idv, none, d2, s2) := by
  simp only [Decoder.Next, hskip, hid, hsize, if_neg hv, if_pos hbound]

/-- Witness for the amended C1: a cursor of total size 3 rejects a header
declaring size 5 with a format error. -/
theorem c1_amended_total_size_check_witness :
    Decoder.Next 0 (.mk 2 3 7 none) ⟨[0x81, 0x85], 0, false⟩ =
      (some .format, 129, none, .mk 0 3 7 none, ⟨[0x81, 0x85], 2, false⟩) :=
  c1_amended_total_size_check 0 (.mk 2 3 7 none) (.mk 2 3 7 none)
    (.mk 1 3 7 none) (.mk 0 3 7 none) ⟨[0x81, 0x85], 0, false⟩
    ⟨[0x81, 0x85], 0, false⟩ ⟨[0x81, 0x85], 1, false⟩ ⟨[0x81, 0x85], 2, false⟩
    129 5 0 0 rfl rfl rfl (by decide) (by decide)

/-- C7 (counterexample): the same cursor (`remaining = 10`) over the same
five input bytes: with a seekable source `Skip` takes the seek path and
succeeds with `remaining = 0`; with a forward-only source the discard path
reports `io.EOF` and leaves `remaining = 10`.  The two paths are observably
different on truncated input. -/
theorem c7_counterexample :
    Decoder.Skip 0 (.mk 10 10 1 none) ⟨[1, 2, 3, 4, 5], 0, true⟩ =
      (none, .mk 0 10 1 none, ⟨[1, 2, 3, 4, 5], 10, true⟩) ∧
    Decoder.Skip 0 (.mk 10 10 1 none) ⟨[1, 2, 3, 4, 5], 0, false⟩ =
      (some .eof, .mk 10 10 1 none, ⟨[1, 2, 3, 4, 5], 5, false⟩) ∧
    (some Err.eof ≠ (none : Option Err)) :=
  ⟨rfl, rfl, by decide⟩

/-- C7 (amended): for a cursor with `0 ≤ remaining` whose source still holds
at least `remaining` bytes, `Skip` succeeds, leaves `remaining = 0`, and
advances the stream by exactly `remaining` — the result does not mention the
buffered-byte count `bn` or the seekable flag, so the seek path and the
discard path are observably equivalent under these conditions. -/
theorem c7_amended_skip_equiv (bn : Nat) (len size idf : Int) (s : Stream)
    (h0 : 0 ≤ len) (hav : len ≤ (s.avail : Int)) :
    Decoder.Skip bn (.mk len size idf none) s =
      (none, .mk 0 size idf none, { s with pos := s.pos + len.toNat }) :=
  Skip_inBounds bn len size idf s h0 hav

/-- Witness for the amended C7 at a concrete cursor and stream. -/
theorem c7_amended_skip_equiv_witness :
    Decoder.Skip 3 (.mk 2 5 1 none) ⟨[9, 9, 9], 0, true⟩ =
      (none, .mk 0 5 1 none, ⟨[9, 9, 9], 2, true⟩) :=
  c7_amended_skip_equiv 3 2 5 1 ⟨[9, 9, 9], 0, true⟩ (by decide) (by decide)

/-- C10: `ReadBytes` on a cursor with no open child.  If the remaining length
is negative or exceeds the 1 MiB guard it returns `ErrFormat` with the cursor
and stream untouched (nothing is read); otherwise, whenever the source holds
the payload, it returns exactly the `remaining` payload bytes, consumes them,
and leaves `remaining = 0`. -/
theorem c10_readbytes_guard (bn : Nat) (len size idf : Int) (s : Stream) :
    ((len < 0 ∨ maxBufferSize < len) →
      Decoder.ReadBytes bn (.mk len size idf none) s =
        (some .format, [], .mk len size idf none, s)) ∧
    (0 ≤ len → len ≤ maxBufferSize → len ≤ (s.avail : Int) →
      Decoder.ReadBytes bn (.mk len size idf none) s =
        (none, (s.data.drop s.pos).take len.toNat, .mk 0 size idf none,
          { s with pos := s.pos + len.toNat })) := by
  constructor
  · intro h
    simp only [Decoder.ReadBytes, Decoder.skip, Decoder.len]
    rw [if_pos h]
  · intro h0 hmax hav
    have htn : ((len.toNat : Nat) : Int) = len := Int.toNat_of_nonneg h0
    have hread : Decoder.Read bn len.toNat (.mk len size idf none) s =
        (none, (s.data.drop s.pos).take len.toNat, .mk 0 size idf none,
          { s with pos := s.pos + len.toNat }) := by
      simp only [Decoder.Read, Decoder.skip]
      rw [if_neg (by rw [htn]; omega)]
      simp only [Decoder.readFill]
      have hmin : min len.toNat s.avail = len.toNat := by omega
      rw [hmin, if_neg (by omega)]
      rw [htn]
      norm_num

    simp only [Decoder.ReadBytes, Decoder.skip, Decoder.len]
    rw [if_neg (by omega)]
    simp only [Decoder.len, hread]

/-! ## Reading serialized elements (claims C4, C5, C9) -/

/-- `Next` when the source is exhausted and the cursor performs no length
check that could fire first: the `io.EOF` surfaces from `ReadByte` with the
cursor untouched. -/
theorem Next_exhausted (bn : Nat) (len size idf : Int) (elem : Option Decoder)
    (hguard : ¬(len < 1 ∧ 0 < size)) (hel : closedChain elem = true)
    (s : Stream) (hexh : s.data.length ≤ s.pos) :
    Decoder.Next bn (.mk len size idf elem) s =
      (some .eof, 0, none, .mk len size idf elem, s) := by
  have hskip := skip_closed bn len size idf elem s hel
  have hrb : s.readByte = none := by
    rw [Stream.readByte, if_neg (by omega)]
  have hrv : Decoder.readVint bn 0 (.mk len size idf elem) s =
      (some .eof, 0, 0, .mk len size idf elem, s) := by
    simp only [Decoder.readVint, hskip]
    rw [if_neg hguard]
    rw [hrb]
  simp only [Decoder.Next, hskip, hrv]

/-- `Next` on an unbounded cursor sitting at a serialized element header
(width-1 id byte `i`, 8-byte size field for a payload length `k`): it
succeeds, consumes the 9 header bytes, and opens a child of size `k`
(no child when `k = 0`). -/
theorem Next_serialized (bn : Nat) (len size idf : Int) (elem : Option Decoder)
    (hsz : size ≤ 0) (hel : closedChain elem = true)
    {i k : Nat} (hi1 : 128 ≤ i) (hi2 : i < 256) (hk : k < 2 ^ 56)
    {s : Stream} {tl : List Nat}
    (hs : s.data.drop s.pos = (i :: 0x01 :: beBytes 7 k) ++ tl) :
    Decoder.Next bn (.mk len size idf elem) s =
      if 0 < k then
        (none, (i : Int), some (.mk k k i none),
          .mk (len - 9 - k) size idf (some (.mk k k i none)),
          { s with pos := s.pos + 9 })
      else
        (none, (i : Int), none, .mk (len - 9) size idf elem,
          { s with pos := s.pos + 9 }) := by
  have hskip := skip_closed bn len size idf elem s hel
  have hs' : s.data.drop s.pos = i :: ([] ++ (0x01 :: (beBytes 7 k ++ tl))) := by
    simpa using hs
  have hrv0 := @readVint_spec bn 0 1 (by norm_num) (by norm_num) i
    (by norm_num; omega) (by norm_num; omega) len size idf elem (Or.inr hsz) hel
    s [] (0x01 :: (beBytes 7 k ++ tl)) rfl hs'
  have hid : combineBytes (i &&& rest.getD (1 - 1 + 0) 0) [] = i := by
    show i &&& 0xff = i
    have : (0xff : Nat) = 2 ^ 8 - 1 := by norm_num
    rw [this, Nat.and_pow_two_sub_one_eq_mod, Nat.mod_eq_of_lt (by omega)]
  rw [hid] at hrv0
  simp only [Nat.cast_one] at hrv0
  have hs1 : ({ s with pos := s.pos + 1 } : Stream).data.drop
      ({ s with pos := s.pos + 1 } : Stream).pos = 1 :: (beBytes 7 k ++ tl) := by
    show s.data.drop (s.pos + 1) = 1 :: (beBytes 7 k ++ tl)
    rw [← List.drop_drop, hs]
    rfl
  have hrv1 := @readVint_spec bn 1 8 (by norm_num) (by norm_num) 1
    (by norm_num) (by norm_num) (len - 1) size idf elem (Or.inr hsz) hel
    { s with pos := s.pos + 1 } (beBytes 7 k) tl (by rw [beBytes_length]) hs1
  have hsize : combineBytes (1 &&& rest.getD (8 - 1 + 1) 0) (beBytes 7 k) = k := by
    show combineBytes (1 &&& 0) (beBytes 7 k) = k
    rw [show (1 : Nat) &&& 0 = 0 from rfl, combineBytes_beBytes]
    have h7 : (256 : Nat) ^ 7 = 2 ^ 56 := by norm_num
    rw [Nat.zero_mul, Nat.zero_add, h7, Nat.mod_eq_of_lt hk]
  rw [hsize] at hrv1
  simp only [Nat.cast_ofNat] at hrv1
  simp only [Decoder.Next, hskip, hrv0, hrv1]
  have hine : ¬((i : Int) = 0 ∨ (k : Int) < 0) := by
    intro h
    rcases h with h | h <;> omega
  rw [if_neg hine]
  have hbound : ¬((Decoder.mk (len - 1 - 8) size idf elem).size < (k : Int) ∧
      0 < (Decoder.mk (len - 1 - 8) size idf elem).size) := by
    simp only [Decoder.size]
    intro h
    omega
  rw [if_neg hbound]
  by_cases hk0 : 0 < k
  · rw [if_pos hk0, if_neg (by omega : ¬((k : Int) = 0))]
    simp only [Decoder.len, Decoder.size, Decoder.id]
    have hl9 : len - 1 - 8 - (k : Int) = len - 9 - k := by ring
    have hp9 : s.pos + 1 + 8 = s.pos + 9 := by omega
    rw [hl9, hp9]
  · have hke : k = 0 := by omega
    subst hke
    rw [if_neg (by omega : ¬(0 : Nat) < 0), if_pos (by norm_num : ((0 : Nat) : Int) = 0)]
    have hl9 : len - 1 - 8 = len - 9 := by ring
    have hp9 : s.pos + 1 + 8 = s.pos + 9 := by omega
    rw [hl9, hp9]

/-- `ReadInt` on a fresh child cursor of size `k ∈ [1, 8]` whose payload
heads the stream: returns the combined payload bytes and consumes them. -/
theorem ReadInt_payload (bn k : Nat) (size idf : Int) (h1 : 1 ≤ k) (h8 : k ≤ 8)
    {s : Stream} {p tl : List Nat} (hp : p.length = k)
    (hs : s.data.drop s.pos = p ++ tl) :
    Decoder.ReadInt bn (.mk (k : Int) size idf none) s =
      (none, toInt64 (combineBytes 0 p), .mk 0 size idf none,
        { s with pos := s.pos + k }) := by
  simp only [Decoder.ReadInt, Decoder.skip]
  rw [if_neg (by omega)]
  have htn : ((k : Int)).toNat = k := Int.toNat_natCast k
  rw [htn, Stream.peek_suffix s k hs hp, Stream.discard_suffix s k hs hp]

/-- `ReadInt` rejects a remaining length outside `[1, 8]`. -/
theorem ReadInt_badlen (bn k : Nat) (size idf : Int) (hbad : k < 1 ∨ 8 < k)
    (s : Stream) :
    Decoder.ReadInt bn (.mk (k : Int) size idf none) s =
      (some .format, 0, .mk (k : Int) size idf none, s) := by
  simp only [Decoder.ReadInt, Decoder.skip]
  rw [if_pos (by omega)]

/-- The two legs of `ReadBytes` on a childless cursor: format error outside
the `[0, 1 MiB]` guard, exact payload within it. -/
theorem ReadBytes_spec (bn : Nat) (len size idf : Int) (s : Stream) :
    ((len < 0 ∨ maxBufferSize < len) →
      Decoder.ReadBytes bn (.mk len size idf none) s =
        (some .format, [], .mk len size idf none, s)) ∧
    (0 ≤ len → len ≤ maxBufferSize → len ≤ (s.avail : Int) →
      Decoder.ReadBytes bn (.mk len size idf none) s =
        (none, (s.data.drop s.pos).take len.toNat, .mk 0 size idf none,
          { s with pos := s.pos + len.toNat })) := by
  constructor
  · intro h
    simp only [Decoder.ReadBytes, Decoder.skip, Decoder.len]
    rw [if_pos h]
  · intro h0 hmax hav
    have htn : ((len.toNat : Nat) : Int) = len := Int.toNat_of_nonneg h0
    have hread : Decoder.Read bn len.toNat (.mk len size idf none) s =
        (none, (s.data.drop s.pos).take len.toNat, .mk 0 size idf none,
          { s with pos := s.pos + len.toNat }) := by
      simp only [Decoder.Read, Decoder.skip]
      rw [if_neg (by rw [htn]; omega)]
      simp only [Decoder.readFill]
      have hmin : min len.toNat s.avail = len.toNat := by omega
      rw [hmin, if_neg (by omega)]
      rw [htn]
      norm_num
    simp only [Decoder.ReadBytes, Decoder.skip, Decoder.len]
    rw [if_neg (by omega)]
    simp only [Decoder.len, hread]

/-- `ReadBytes` on a fresh child cursor of size `k ≤ 1 MiB` whose `k`-byte
payload heads the stream: returns exactly the payload. -/
theorem ReadBytes_payload (bn k : Nat) (size idf : Int) (hg : (k : Int) ≤ maxBufferSize)
    {s : Stream} {p tl : List Nat} (hp : p.length = k)
    (hs : s.data.drop s.pos = p ++ tl) :
    Decoder.ReadBytes bn (.mk (k : Int) size idf none) s =
      (none, p, .mk 0 size idf none, { s with pos := s.pos + k }) := by
  have hav : (k : Int) ≤ (s.avail : Int) := by
    rw [Stream.avail_eq, hs, List.length_append]
    omega
  have h := (ReadBytes_spec bn (k : Int) size idf s).2 (by omega) hg hav
  have htn : ((k : Int)).toNat = k := Int.toNat_natCast k
  rw [htn] at h
  rw [h, hs, List.take_left' hp]

/-- `ReadBytes` rejects a remaining length above the 1 MiB guard. -/
theorem ReadBytes_badlen (bn k : Nat) (size idf : Int)
    (hbad : maxBufferSize < (k : Int)) (s : Stream) :
    Decoder.ReadBytes bn (.mk (k : Int) size idf none) s =
      (some .format, [], .mk (k : Int) size idf none, s) :=
  (ReadBytes_spec bn (k : Int) size idf s).1 (Or.inr hbad)

/-- `Skip` on a fresh child cursor of size `k` whose `k`-byte payload heads
the stream: discards it exactly, by either path. -/
theorem Skip_payload (bn k : Nat) (size idf : Int)
    {s : Stream} {p tl : List Nat} (hp : p.length = k)
    (hs : s.data.drop s.pos = p ++ tl) :
    Decoder.Skip bn (.mk (k : Int) size idf none) s =
      (none, .mk 0 size idf none, { s with pos := s.pos + k }) := by
  have hav : (k : Int) ≤ (s.avail : Int) := by
    rw [Stream.avail_eq, hs, List.length_append]
    omega
  have h := Skip_inBounds bn (k : Int) size idf s (by omega) hav
  have htn : ((k : Int)).toNat = k := Int.toNat_natCast k
  rw [htn] at h
  exact h

theorem toInt64_small {x : Nat} (h : x < 2 ^ 63) : toInt64 x = x := by
  have h64 : x < 2 ^ 64 := lt_of_lt_of_le h (by norm_num)
  rw [toInt64, Nat.mod_eq_of_lt h64, if_pos h]
  omega

theorem combineBytes_single (b : Nat) : combineBytes 0 [b] = b := by
  simp [combineBytes, combByte, Nat.zero_shiftLeft, Nat.zero_or]

/-- The serialized stream of a nonempty element list, split at the 9-byte
header boundary. -/
theorem serialize_cons_assoc (i : Nat) (p : List Nat) (t : List (Nat × List Nat)) :
    serialize ((i, p) :: t) =
      (i :: 0x01 :: beBytes 7 p.length) ++ (p ++ serialize t) := by
  simp [serialize, encodeElem, List.append_assoc]

/-- C5: a size-bounded cursor (`0 < size`) with `remaining > 0` whose source
is exhausted at an element boundary: `Next`'s `io.EOF` (from the header
`ReadByte`) makes the decode loop stop and report success with the value
accumulated so far; cursor and stream are untouched. -/
theorem c5_eof_is_end_of_container (bn fuel : Nat) (sh : List (Int × FKind))
    (v : List FVal) (len size idf : Int) (s : Stream)
    (hlen : 0 < len) (_hsize : 0 < size) (hexh : s.data.length ≤ s.pos) :
    unmarshalEBML bn (fuel + 1) sh v (.mk len size idf none) s =
      (none, v, .mk len size idf none, s) := by
  have hnext := Next_exhausted bn len size idf none
    (by intro h; omega) rfl s hexh
  simp only [unmarshalEBML, hnext]

/-- Witness for C5: a cursor with `remaining = 4` of a container of size 9,
over an exhausted source, decodes to success with the value unchanged. -/
theorem c5_eof_is_end_of_container_witness :
    unmarshalEBML 0 4 [(0xC2, .kint)] [.vint 7] (.mk 4 9 1 none)
        ⟨[1, 2, 3], 3, false⟩ =
      (none, [.vint 7], .mk 4 9 1 none, ⟨[1, 2, 3], 3, false⟩) :=
  c5_eof_is_end_of_container 0 3 [(0xC2, .kint)] [.vint 7] 4 9 1
    ⟨[1, 2, 3], 3, false⟩ (by decide) (by decide) (by decide)

/-- C4 (counterexample): two sibling `0xC1` elements map to a non-repeated
pointer-to-struct field.  The first of them sets subfields `A = 7, B = 9`;
the second carries only `A = 5`.  The decoded tree holds `{A = 5, B = 9}` —
the second occurrence was decoded *into* the instance created by the first
(merge), not into a fresh instance `{A = 5, B = 0}` as the claim predicts. -/
theorem c4_counterexample :
    unmarshalEBML 0 20 [(0xC1, .kptr [(0xC2, .kint), (0xC3, .kint)])]
        [.vptr none] (.mk 0 0 0 none)
        ⟨[0xC1, 0x86, 0xC2, 0x81, 0x07, 0xC3, 0x81, 0x09, 0xC1, 0x83, 0xC2, 0x81, 0x05],
          0, false⟩ =
      (none, [.vptr (some [.vint 5, .vint 9])],
        .mk (-13) 0 0 (some (.mk 0 3 0xC1 (some (.mk 0 1 0xC2 none)))),
        ⟨[0xC1, 0x86, 0xC2, 0x81, 0x07, 0xC3, 0x81, 0x09, 0xC1, 0x83, 0xC2, 0x81, 0x05],
          13, false⟩) ∧
    probeInt2 [.vptr (some [.vint 5, .vint 9])] = 9 ∧
    probeInt2 [.vptr (some [.vint 5, .vint 0])] = 0 ∧
    (9 : Int) ≠ 0 :=
  ⟨rfl, rfl, rfl, by decide⟩

/-- C4 (amended), scalar half proved for all payload byte values: with two
sibling elements of the same id mapped to a non-repeated integer field, the
last occurrence overwrites the earlier decoded value, with no error.  The
nested-structure half (in-place merge, not a fresh instance) is the second
conjunct. -/
theorem c4_amended_last_wins (bn : Nat) (sk : Bool) (a c : Nat)
    (ha : a < 256) (hc : c < 256) :
    unmarshalEBML bn 3 [(0xC2, .kint)] [.vint 0] (.mk 0 0 0 none)
        ⟨serialize [(0xC2, [a]), (0xC2, [c])], 0, sk⟩ =
      (none, [.vint (c : Int)],
        .mk (-20) 0 0 (some (.mk 0 1 0xC2 none)),
        ⟨serialize [(0xC2, [a]), (0xC2, [c])], 20, sk⟩) ∧
    (unmarshalEBML 0 20 [(0xC1, .kptr [(0xC2, .kint), (0xC3, .kint)])]
        [.vptr none] (.mk 0 0 0 none)
        ⟨[0xC1, 0x86, 0xC2, 0x81, 0x07, 0xC3, 0x81, 0x09, 0xC1, 0x83, 0xC2, 0x81, 0x05],
          0, false⟩).2.1 =
      [.vptr (some [.vint 5, .vint 9])] := by
  constructor
  · have hs0 : (⟨serialize [(0xC2, [a]), (0xC2, [c])], 0, sk⟩ : Stream).data.drop 0 =
        (0xC2 :: 0x01 :: beBytes 7 1) ++ ([a] ++ serialize [(0xC2, [c])]) := by
      show serialize [(0xC2, [a]), (0xC2, [c])] = _
      simpa using serialize_cons_assoc 0xC2 [a] [(0xC2, [c])]
    have hnx1 := @Next_serialized bn 0 0 0 none (by norm_num) rfl 0xC2 1
      (by norm_num) (by norm_num) (by norm_num)
      ⟨serialize [(0xC2, [a]), (0xC2, [c])], 0, sk⟩
      ([a] ++ serialize [(0xC2, [c])]) hs0
    rw [if_pos (by norm_num)] at hnx1
    have hs1 : (⟨serialize [(0xC2, [a]), (0xC2, [c])], 0, sk⟩ : Stream).data.drop (0 + 9) =
        [a] ++ serialize [(0xC2, [c])] :=
      @Stream.drop_advance ⟨serialize [(0xC2, [a]), (0xC2, [c])], 0, sk⟩
        (0xC2 :: 0x01 :: beBytes 7 1) ([a] ++ serialize [(0xC2, [c])]) 9 hs0
        (by rw [List.length_cons, List.length_cons, beBytes_length])
    have hri1 := @ReadInt_payload bn 1 1 0xC2 (by norm_num) (by norm_num)
      ⟨serialize [(0xC2, [a]), (0xC2, [c])], 0 + 9, sk⟩
      [a] (serialize [(0xC2, [c])]) rfl hs1
    rw [combineBytes_single, toInt64_small (by omega)] at hri1
    have hs2 : (⟨serialize [(0xC2, [a]), (0xC2, [c])], 0 + 9, sk⟩ : Stream).data.drop (0 + 9 + 1) =
        (0xC2 :: 0x01 :: beBytes 7 1) ++ ([c] ++ serialize ([] : List (Nat × List Nat))) := by
      have := @Stream.drop_advance ⟨serialize [(0xC2, [a]), (0xC2, [c])], 0 + 9, sk⟩
        [a] (serialize [(0xC2, [c])]) 1 hs1 rfl
      rw [this]
      simpa using serialize_cons_assoc 0xC2 [c] []
    have hnx2 := @Next_serialized bn (0 - 9 - 1) 0 0
      (some (.mk 0 1 0xC2 none)) (by norm_num)
      (by simp [closedChain, Option.all, Decoder.chainClosed]) 0xC2 1
      (by norm_num) (by norm_num) (by norm_num)
      ⟨serialize [(0xC2, [a]), (0xC2, [c])], 0 + 9 + 1, sk⟩
      ([c] ++ serialize ([] : List (Nat × List Nat))) hs2
    rw [if_pos (by norm_num)] at hnx2
    have hs3 : (⟨serialize [(0xC2, [a]), (0xC2, [c])], 0 + 9 + 1, sk⟩ : Stream).data.drop
        (0 + 9 + 1 + 9) = [c] ++ serialize ([] : List (Nat × List Nat)) :=
      @Stream.drop_advance ⟨serialize [(0xC2, [a]), (0xC2, [c])], 0 + 9 + 1, sk⟩
        (0xC2 :: 0x01 :: beBytes 7 1) ([c] ++ serialize ([] : List (Nat × List Nat))) 9 hs2
        (by rw [List.length_cons, List.length_cons, beBytes_length])
    have hri2 := @ReadInt_payload bn 1 1 0xC2 (by norm_num) (by norm_num)
      ⟨serialize [(0xC2, [a]), (0xC2, [c])], 0 + 9 + 1 + 9, sk⟩
      [c] (serialize ([] : List (Nat × List Nat))) rfl hs3
    rw [combineBytes_single, toInt64_small (by omega)] at hri2
    have hs4 : (⟨serialize [(0xC2, [a]), (0xC2, [c])], 0 + 9 + 1 + 9, sk⟩ : Stream).data.drop
        (0 + 9 + 1 + 9 + 1) = [] :=
      @Stream.drop_advance ⟨serialize [(0xC2, [a]), (0xC2, [c])], 0 + 9 + 1 + 9, sk⟩
        [c] (serialize ([] : List (Nat × List Nat))) 1 hs3 rfl
    have hex : (⟨serialize [(0xC2, [a]), (0xC2, [c])], 0 + 9 + 1 + 9 + 1, sk⟩ : Stream).data.length ≤
        0 + 9 + 1 + 9 + 1 := List.drop_eq_nil_iff.1 hs4
    have hnx3 := Next_exhausted bn (0 - 9 - 1 - 9 - 1) 0 0
      (some (.mk 0 1 0xC2 none)) (by intro h; omega)
      (by simp [closedChain, Option.all, Decoder.chainClosed])
      ⟨serialize [(0xC2, [a]), (0xC2, [c])], 0 + 9 + 1 + 9 + 1, sk⟩ hex
    norm_num at hnx1 hri1 hnx2 hri2 hnx3
    norm_num [unmarshalEBML, hnx1, hri1, hnx2, hri2, hnx3, lookupField,
      List.enum, List.enumFrom, Decoder.withElem]
  · rfl

/-- Witness for the amended C4 at the payload bytes 7 and 5. -/
theorem c4_amended_last_wins_witness :
    unmarshalEBML 0 3 [(0xC2, .kint)] [.vint 0] (.mk 0 0 0 none)
        ⟨serialize [(0xC2, [7]), (0xC2, [5])], 0, false⟩ =
      (none, [.vint 5],
        .mk (-20) 0 0 (some (.mk 0 1 0xC2 none)),
        ⟨serialize [(0xC2, [7]), (0xC2, [5])], 20, false⟩) :=
  (c4_amended_last_wins 0 false 7 5 (by decide) (by decide)).1

/-- C9 (counterexample): two streams that differ *only* in the six payload
bytes of the unrecognized element `0xC5` (positions 12–17; its declared size
6 is valid in both).  The recognized child `0xC1` contains a grandchild
declaring size 8, which passes the total-size check but overruns the child's
remaining bytes: `ReadBytes` reads straight through the unknown sibling's
header and payload.  Both decodes succeed, yet the resulting value trees
differ — the unknown element's payload was inspected. -/
theorem c9_counterexample :
    (List.take 12 [0xC1, 0x88, 0xC4, 0x84, 9, 9, 9, 9, 0xC2, 0x88, 0xC5, 0x86,
        1, 1, 1, 1, 1, 1] =
      List.take 12 [0xC1, 0x88, 0xC4, 0x84, 9, 9, 9, 9, 0xC2, 0x88, 0xC5, 0x86,
        2, 2, 2, 2, 2, 2]) ∧
    (unmarshalEBML 0 20 [(0xC1, .kptr [(0xC2, .kbytes)])] [.vptr none]
        (.mk 0 0 0 none)
        ⟨[0xC1, 0x88, 0xC4, 0x84, 9, 9, 9, 9, 0xC2, 0x88, 0xC5, 0x86,
          1, 1, 1, 1, 1, 1], 0, false⟩).1 = none ∧
    (unmarshalEBML 0 20 [(0xC1, .kptr [(0xC2, .kbytes)])] [.vptr none]
        (.mk 0 0 0 none)
        ⟨[0xC1, 0x88, 0xC4, 0x84, 9, 9, 9, 9, 0xC2, 0x88, 0xC5, 0x86,
          2, 2, 2, 2, 2, 2], 0, false⟩).1 = none ∧
    probeBytes (unmarshalEBML 0 20 [(0xC1, .kptr [(0xC2, .kbytes)])] [.vptr none]
        (.mk 0 0 0 none)
        ⟨[0xC1, 0x88, 0xC4, 0x84, 9, 9, 9, 9, 0xC2, 0x88, 0xC5, 0x86,
          1, 1, 1, 1, 1, 1], 0, false⟩).2.1 = [0xC5, 0x86, 1, 1, 1, 1, 1, 1] ∧
    probeBytes (unmarshalEBML 0 20 [(0xC1, .kptr [(0xC2, .kbytes)])] [.vptr none]
        (.mk 0 0 0 none)
        ⟨[0xC1, 0x88, 0xC4, 0x84, 9, 9, 9, 9, 0xC2, 0x88, 0xC5, 0x86,
          2, 2, 2, 2, 2, 2], 0, false⟩).2.1 = [0xC5, 0x86, 2, 2, 2, 2, 2, 2] ∧
    ([0xC5, 0x86, 1, 1, 1, 1, 1, 1] : List Nat) ≠ [0xC5, 0x86, 2, 2, 2, 2, 2, 2] :=
  ⟨rfl, rfl, rfl, rfl, rfl, by decide⟩

/-- Over a leaf schema the id lookup never produces a nested-struct field:
the accumulator of `lookupField`'s fold can only ever hold kinds taken from
the schema itself. -/
theorem lookupFrom_leaf (idv : Int) :
    ∀ (sh : List (Int × FKind)), leafShape sh = true →
    ∀ (j : Nat) (acc : Option (Nat × FKind)),
      (∀ k inn, acc = some (k, FKind.kptr inn) → False) →
      ∀ idx inner,
        (List.enumFrom j sh).foldl
          (fun acc x => if x.2.1 = idv then some (x.1, x.2.2) else acc) acc =
          some (idx, FKind.kptr inner) → False := by
  intro sh
  induction sh with
  | nil =>
    intro _ j acc hacc idx inner h
    exact hacc idx inner h
  | cons p t ih =>
    obtain ⟨pid, pk⟩ := p
    intro hleaf j acc hacc idx inner h
    simp only [leafShape, List.all_cons, Bool.and_eq_true] at hleaf
    obtain ⟨hp, ht⟩ := hleaf
    simp only [List.enumFrom, List.foldl_cons] at h
    refine ih (by simpa [leafShape] using ht) (j + 1) _ ?_ idx inner h
    intro k inner' hk
    by_cases hc : (pid : Int) = idv
    · rw [if_pos hc] at hk
      simp only [Option.some.injEq, Prod.mk.injEq] at hk
      cases pk with
      | kptr inn => simp at hp
      | kint => exact FKind.noConfusion hk.2
      | kbytes => exact FKind.noConfusion hk.2
      | kstring => exact FKind.noConfusion hk.2
    · rw [if_neg hc] at hk
      exact hacc k inner' hk

/-- Specialisation of the previous lemma to `lookupField` itself. -/
theorem lookupField_leaf (sh : List (Int × FKind)) (hleaf : leafShape sh = true)
    (idv : Int) (idx : Nat) (inner : List (Int × FKind))
    (h : lookupField sh idv = some (idx, FKind.kptr inner)) : False :=
  lookupFrom_leaf idv sh hleaf 0 none (fun _ _ hx => Option.noConfusion hx)
    idx inner h

/-- C9 (amended): for a *flat* schema (no nested struct fields, so no child
cursor is ever left partially consumed) and an unbounded container whose
payload is a list of well-formed sibling elements, two streams that agree on
everything except the payload bytes of elements whose ids match no field
descriptor decode to the same error outcome and the same value tree.  (The
original claim, quantifying over nested schemas as well, is refuted by the
counterexample: an over-long grandchild declared inside a recognized child
reads straight through an unknown sibling's payload.) -/
theorem c9_amended_unknown_payloads (bn : Nat) (sh : List (Int × FKind))
    (hleaf : leafShape sh = true) (size : Int) (hsz : size ≤ 0) :
    ∀ (fuel : Nat) (es1 es2 : List (Nat × List Nat)),
      validElems es1 = true → agreeElems sh es1 es2 = true →
      ∀ (v : List FVal) (len idf : Int) (elem : Option Decoder),
        closedChain elem = true →
        ∀ (s1 s2 : Stream),
          s1.data.drop s1.pos = serialize es1 →
          s2.data.drop s2.pos = serialize es2 →
          (unmarshalEBML bn fuel sh v (.mk len size idf elem) s1).1 =
            (unmarshalEBML bn fuel sh v (.mk len size idf elem) s2).1 ∧
          (unmarshalEBML bn fuel sh v (.mk len size idf elem) s1).2.1 =
            (unmarshalEBML bn fuel sh v (.mk len size idf elem) s2).2.1 := by
  intro fuel
  induction fuel with
  | zero =>
    intro es1 es2 _ _ v len idf elem _ s1 s2 _ _
    exact ⟨rfl, rfl⟩
  | succ fuel ih =>
    intro es1 es2 hv1 hagree v len idf elem hel s1 s2 hs1 hs2
    rcases es1 with _ | ⟨⟨i1, p1⟩, t1⟩
    · rcases es2 with _ | ⟨⟨i2, p2⟩, t2⟩
      · have hexh1 : s1.data.length ≤ s1.pos :=
          List.drop_eq_nil_iff.1 (by simpa [serialize] using hs1)
        have hexh2 : s2.data.length ≤ s2.pos :=
          List.drop_eq_nil_iff.1 (by simpa [serialize] using hs2)
        have hnx1 := Next_exhausted bn len size idf elem (by intro h; omega) hel s1 hexh1
        have hnx2 := Next_exhausted bn len size idf elem (by intro h; omega) hel s2 hexh2
        simp only [unmarshalEBML, hnx1, hnx2]
        exact ⟨trivial, trivial⟩
      · simp [agreeElems] at hagree
    · rcases es2 with _ | ⟨⟨i2, p2⟩, t2⟩
      · simp [agreeElems] at hagree
      · simp only [validElems, Bool.and_eq_true, decide_eq_true_eq] at hv1
        obtain ⟨⟨⟨h128, h256⟩, hplen⟩, hvt1⟩ := hv1
        simp only [agreeElems, Bool.and_eq_true, beq_iff_eq] at hagree
        obtain ⟨⟨⟨hid, hlen⟩, hunk⟩, hagt⟩ := hagree
        subst hid
        have hss1 : s1.data.drop s1.pos =
            (i1 :: 0x01 :: beBytes 7 p1.length) ++ (p1 ++ serialize t1) := by
          rw [hs1, serialize_cons_assoc]
        have hss2 : s2.data.drop s2.pos =
            (i1 :: 0x01 :: beBytes 7 p1.length) ++ (p2 ++ serialize t2) := by
          rw [hs2, serialize_cons_assoc, ← hlen]
        have hnx1 := @Next_serialized bn len size idf elem hsz hel i1 p1.length
          h128 h256 hplen s1 (p1 ++ serialize t1) hss1
        have hnx2 := @Next_serialized bn len size idf elem hsz hel i1 p1.length
          h128 h256 hplen s2 (p2 ++ serialize t2) hss2
        have hd1 : s1.data.drop (s1.pos + 9) = p1 ++ serialize t1 :=
          @Stream.drop_advance s1 (i1 :: 0x01 :: beBytes 7 p1.length)
            (p1 ++ serialize t1) 9 hss1
            (by rw [List.length_cons, List.length_cons, beBytes_length])
        have hd2 : s2.data.drop (s2.pos + 9) = p2 ++ serialize t2 :=
          @Stream.drop_advance s2 (i1 :: 0x01 :: beBytes 7 p1.length)
            (p2 ++ serialize t2) 9 hss2
            (by rw [List.length_cons, List.length_cons, beBytes_length])
        by_cases hk0 : 0 < p1.length
        · rw [if_pos hk0] at hnx1 hnx2
          rcases hlf : lookupField sh (i1 : Int) with _ | ⟨idx, fk⟩
          · have hsk1 := @Skip_payload bn p1.length (p1.length : Int) (i1 : Int)
              ({ s1 with pos := s1.pos + 9 }) p1 (serialize t1) rfl hd1
            have hsk2 := @Skip_payload bn p1.length (p1.length : Int) (i1 : Int)
              ({ s2 with pos := s2.pos + 9 }) p2 (serialize t2) hlen.symm hd2
            have he1 := @Stream.drop_advance ({ s1 with pos := s1.pos + 9 } : Stream)
              p1 (serialize t1) p1.length hd1 rfl
            have he2 := @Stream.drop_advance ({ s2 with pos := s2.pos + 9 } : Stream)
              p2 (serialize t2) p1.length hd2 hlen.symm
            simp only [unmarshalEBML, hnx1, hnx2, hlf, hsk1, hsk2, Decoder.withElem]
            refine ih t1 t2 hvt1 hagt _ _ _ _ ?_ _ _ he1 he2
            simp [closedChain, Option.all, Decoder.chainClosed]
          · have hp12 : p1 = p2 := by
              rw [hlf] at hunk
              simpa using hunk
            subst hp12
            cases fk with
            | kint =>
              by_cases hrng : p1.length ≤ 8
              · have hri1 := @ReadInt_payload bn p1.length (p1.length : Int) (i1 : Int)
                  (by omega) hrng ({ s1 with pos := s1.pos + 9 }) p1 (serialize t1) rfl hd1
                have hri2 := @ReadInt_payload bn p1.length (p1.length : Int) (i1 : Int)
                  (by omega) hrng ({ s2 with pos := s2.pos + 9 }) p1 (serialize t2) rfl hd2
                have he1 := @Stream.drop_advance ({ s1 with pos := s1.pos + 9 } : Stream)
                  p1 (serialize t1) p1.length hd1 rfl
                have he2 := @Stream.drop_advance ({ s2 with pos := s2.pos + 9 } : Stream)
                  p1 (serialize t2) p1.length hd2 rfl
                simp only [unmarshalEBML, hnx1, hnx2, hlf, hri1, hri2, Decoder.withElem]
                refine ih t1 t2 hvt1 hagt _ _ _ _ ?_ _ _ he1 he2
                simp [closedChain, Option.all, Decoder.chainClosed]
              · have hri1 := ReadInt_badlen bn p1.length (p1.length : Int) (i1 : Int)
                  (Or.inr (by omega)) ({ s1 with pos := s1.pos + 9 })
                have hri2 := ReadInt_badlen bn p1.length (p1.length : Int) (i1 : Int)
                  (Or.inr (by omega)) ({ s2 with pos := s2.pos + 9 })
                simp only [unmarshalEBML, hnx1, hnx2, hlf, hri1, hri2]
                exact ⟨trivial, trivial⟩
            | kbytes =>
              by_cases hrng : (p1.length : Int) ≤ maxBufferSize
              · have hrb1 := @ReadBytes_payload bn p1.length (p1.length : Int) (i1 : Int)
                  hrng ({ s1 with pos := s1.pos + 9 }) p1 (serialize t1) rfl hd1
                have hrb2 := @ReadBytes_payload bn p1.length (p1.length : Int) (i1 : Int)
                  hrng ({ s2 with pos := s2.pos + 9 }) p1 (serialize t2) rfl hd2
                have he1 := @Stream.drop_advance ({ s1 with pos := s1.pos + 9 } : Stream)
                  p1 (serialize t1) p1.length hd1 rfl
                have he2 := @Stream.drop_advance ({ s2 with pos := s2.pos + 9 } : Stream)
                  p1 (serialize t2) p1.length hd2 rfl
                simp only [unmarshalEBML, hnx1, hnx2, hlf, hrb1, hrb2, Decoder.withElem]
                refine ih t1 t2 hvt1 hagt _ _ _ _ ?_ _ _ he1 he2
                simp [closedChain, Option.all, Decoder.chainClosed]
              · have hrb1 := ReadBytes_badlen bn p1.length (p1.length : Int) (i1 : Int)
                  (not_le.mp hrng) ({ s1 with pos := s1.pos + 9 })
                have hrb2 := ReadBytes_badlen bn p1.length (p1.length : Int) (i1 : Int)
                  (not_le.mp hrng) ({ s2 with pos := s2.pos + 9 })
                simp only [unmarshalEBML, hnx1, hnx2, hlf, hrb1, hrb2]
                exact ⟨trivial, trivial⟩
            | kstring =>
              by_cases hrng : (p1.length : Int) ≤ maxBufferSize
              · have hrb1 := @ReadBytes_payload bn p1.length (p1.length : Int) (i1 : Int)
                  hrng ({ s1 with pos := s1.pos + 9 }) p1 (serialize t1) rfl hd1
                have hrb2 := @ReadBytes_payload bn p1.length (p1.length : Int) (i1 : Int)
                  hrng ({ s2 with pos := s2.pos + 9 }) p1 (serialize t2) rfl hd2
                have he1 := @Stream.drop_advance ({ s1 with pos := s1.pos + 9 } : Stream)
                  p1 (serialize t1) p1.length hd1 rfl
                have he2 := @Stream.drop_advance ({ s2 with pos := s2.pos + 9 } : Stream)
                  p1 (serialize t2) p1.length hd2 rfl
                simp only [unmarshalEBML, hnx1, hnx2, hlf, Decoder.ReadString,
                  hrb1, hrb2, Decoder.withElem]
                refine ih t1 t2 hvt1 hagt _ _ _ _ ?_ _ _ he1 he2
                simp [closedChain, Option.all, Decoder.chainClosed]
              · have hrb1 := ReadBytes_badlen bn p1.length (p1.length : Int) (i1 : Int)
                  (not_le.mp hrng) ({ s1 with pos := s1.pos + 9 })
                have hrb2 := ReadBytes_badlen bn p1.length (p1.length : Int) (i1 : Int)
                  (not_le.mp hrng) ({ s2 with pos := s2.pos + 9 })
                simp only [unmarshalEBML, hnx1, hnx2, hlf, Decoder.ReadString, hrb1, hrb2]
                exact ⟨trivial, trivial⟩
            | kptr inner =>
              exact (lookupField_leaf sh hleaf (i1 : Int) idx inner hlf).elim
        · rw [if_neg hk0] at hnx1 hnx2
          have hp1 : p1 = [] := List.length_eq_zero.1 (by omega)
          have hp2 : p2 = [] := List.length_eq_zero.1 (by omega)
          subst hp1
          subst hp2
          simp only [unmarshalEBML, hnx1, hnx2]
          exact ih t1 t2 hvt1 hagt v (len - 9) idf elem hel
            { s1 with pos := s1.pos + 9 } { s2 with pos := s2.pos + 9 }
            (by simpa using hd1) (by simpa using hd2)

/-- Witness for the amended C9: an unknown element `0xC2` with two different
2-byte payloads over the schema `[(0xC1, int)]` decodes to the same outcome
and the same value. -/
theorem c9_amended_unknown_payloads_witness :
    (unmarshalEBML 0 2 [(0xC1, .kint)] [.vint 0] (.mk 0 0 0 none)
        ⟨serialize [(0xC2, [1, 1])], 0, false⟩).1 =
      (unmarshalEBML 0 2 [(0xC1, .kint)] [.vint 0] (.mk 0 0 0 none)
        ⟨serialize [(0xC2, [2, 2])], 0, false⟩).1 ∧
    (unmarshalEBML 0 2 [(0xC1, .kint)] [.vint 0] (.mk 0 0 0 none)
        ⟨serialize [(0xC2, [1, 1])], 0, false⟩).2.1 =
      (unmarshalEBML 0 2 [(0xC1, .kint)] [.vint 0] (.mk 0 0 0 none)
        ⟨serialize [(0xC2, [2, 2])], 0, false⟩).2.1 :=
  c9_amended_unknown_payloads 0 [(0xC1, .kint)] (by decide) 0 (by decide) 2
    [(0xC2, [1, 1])] [(0xC2, [2, 2])] (by decide) (by decide)
    [.vint 0] 0 0 none (by decide)
    ⟨serialize [(0xC2, [1, 1])], 0, false⟩ ⟨serialize [(0xC2, [2, 2])], 0, false⟩
    rfl rfl

/-- Witness for C10: both guard legs at concrete inputs — an over-guard
length is rejected untouched, and a 2-byte payload is returned exactly. -/
theorem c10_readbytes_guard_witness :
    Decoder.ReadBytes 0 (.mk (2 ^ 20 + 1) 5 1 none) ⟨[7, 8, 9], 0, false⟩ =
      (some .format, [], .mk (2 ^ 20 + 1) 5 1 none, ⟨[7, 8, 9], 0, false⟩) ∧
    Decoder.ReadBytes 0 (.mk 2 9 1 none) ⟨[7, 8, 9], 0, false⟩ =
      (none, [7, 8], .mk 0 9 1 none, ⟨[7, 8, 9], 2, false⟩) :=
  ⟨(c10_readbytes_guard 0 (2 ^ 20 + 1) 5 1 ⟨[7, 8, 9], 0, false⟩).1
      (by right; decide),
    (c10_readbytes_guard 0 2 9 1 ⟨[7, 8, 9], 0, false⟩).2
      (by decide) (by decide) (by decide)⟩

end GoMatroska
